import Mathlib

/-!
# A verification development for `cli.c`

`cli.c` is a minimal command shell.  `parse_commands` splits a line into
semicolon-delimited commands with the C library's `strtok`, and `run_commands`
trims every command in place, recognises the `exit` built-in and hands every
other command to `system()`.  The two drivers, `run_batch_script` and
`run_prompt_loop`, feed it the lines of a script or of the standard input.

The embedding keeps the memory of the program explicit.  A buffer is a list of
characters, a pointer is an index into it, and a C string is what one reads
from a pointer up to the first terminator.  `strtok` and the trimming loop of
`run_commands` overwrite characters of the buffer exactly where the C code
does.  The process-spawning facility `system()` is a parameter: a function of
the invocations made so far and of the command string, returning the status.
-/

namespace CLI

/-! ## Memory and C strings -/

/-- The string terminator, the character with code 0. -/
def NUL : Char := Char.ofNat 0

/-- The predicate `isspace` of `<ctype.h>` in the "C" locale (the program never
calls `setlocale`): space, `\t`, `\n`, `\v`, `\f`, `\r`. -/
def isspace (c : Char) : Bool :=
  c == ' ' || c == '\t' || c == '\n' || c == Char.ofNat 11 || c == Char.ofNat 12 || c == '\r'

/-- The character stored at address `p`, written `*p` in C.  Addresses past the
end of the buffer read as the terminator. -/
def peek (mem : List Char) (p : Nat) : Char := mem.getD p NUL

/-- The number of consecutive characters, starting at address `p`, that satisfy
`f`: the distance a forward scan `while (f(*p)) p++` travels. -/
def span (f : Char → Bool) (mem : List Char) (p : Nat) : Nat :=
  ((mem.drop p).takeWhile f).length

/-- The C string at address `p`: the characters from `p` up to the first
terminator. -/
def cstr (mem : List Char) (p : Nat) : List Char :=
  (mem.drop p).takeWhile (fun c => c != NUL)

/-- The function `strlen` of `<string.h>`. -/
def strlen (mem : List Char) (p : Nat) : Nat := (cstr mem p).length

/-- The function `strspn` of `<string.h>`: the length of the initial segment of
the string at `p` made only of characters of `accept`. -/
def strspn (mem : List Char) (p : Nat) (accept : List Char) : Nat :=
  span (fun c => c != NUL && accept.elem c) mem p

/-- The function `strcspn` of `<string.h>`: the length of the initial segment
of the string at `p` made only of characters not in `reject`. -/
def strcspn (mem : List Char) (p : Nat) (reject : List Char) : Nat :=
  span (fun c => c != NUL && !reject.elem c) mem p

/-- The buffer that holds a line: its characters followed by the terminator. -/
def lineBuffer (line : List Char) : List Char := line ++ [NUL]

/-! ## `strtok` -/

/-- The state `strtok` works on: the buffer being tokenised and the position
the function keeps between calls. -/
structure TokState where
  mem : List Char
  save : Nat
deriving DecidableEq, Repr

/-- The function `strtok` of `<string.h>`, as ISO C describes it.  `str` is
`none` for a `NULL` first argument.  The search starts at `str`, or at the
saved position; leading delimiters are skipped; if the string ends there, the
result is `NULL`.  Otherwise the token runs up to the next delimiter, which is
overwritten with a terminator, and the search position for the next call is
the character after it; a token ending at the end of the string leaves the
saved position on the terminator. -/
def strtok (str : Option Nat) (delim : List Char) (st : TokState) : Option Nat × TokState :=
  let s := match str with
    | some p => p
    | none => st.save
  let s := s + strspn st.mem s delim
  if peek st.mem s = NUL then
    (none, { st with save := s })
  else
    let e := s + strcspn st.mem s delim
    if peek st.mem e = NUL then
      (some s, { st with save := e })
    else
      (some s, { mem := st.mem.set e NUL, save := e + 1 })

/-! ## `parse_commands` -/

/-- What `parse_commands` leaves behind: the returned value `ret` (the number
of commands, or `-1`), the array `*commands` of pointers into the line (its
first `command_count` slots), the capacity of that array, and the line buffer
as `strtok` rewrote it. -/
structure Parsed where
  ret : Int
  commands : List Nat
  capacity : Nat
  mem : List Char
deriving DecidableEq, Repr

/-- The loop `while (command != NULL)` of `parse_commands`.  `alloc n` tells
whether a request for an array of `n` pointers succeeds.  The first argument
bounds the number of iterations; `none` means the bound was reached.  The list
`commands` holds the first `command_count` slots of the array, so the store
`(*commands)[command_count] = command` appends to it. -/
def parse_loop (alloc : Nat → Bool) :
    Nat → Option Nat → TokState → List Nat → Nat → Nat → Option Parsed
  | 0, _, _, _, _, _ => none
  | _ + 1, none, st, commands, command_count, commands_capacity =>
    some { ret := command_count, commands := commands, capacity := commands_capacity,
           mem := st.mem }
  | fuel + 1, some command, st, commands, command_count, commands_capacity =>
    if command_count = commands_capacity then
      if alloc (commands_capacity * 2) then
        let next := strtok none [';'] st
        parse_loop alloc fuel next.1 next.2 (commands ++ [command]) (command_count + 1)
          (commands_capacity * 2)
      else
        some { ret := -1, commands := [], capacity := commands_capacity, mem := st.mem }
    else
      let next := strtok none [';'] st
      parse_loop alloc fuel next.1 next.2 (commands ++ [command]) (command_count + 1)
        commands_capacity

/-- The initial number of slots of the array of commands. -/
def DEFAULT_INIT_ALLOC_ITEMS : Nat := 4

/-- The function `parse_commands` of `cli.c`: `str` points into the buffer
`mem`.  The loop is given one more iteration than the buffer has characters,
which is always enough (every token found consumes at least one character). -/
def parse_commands (alloc : Nat → Bool) (mem : List Char) (str : Nat) : Option Parsed :=
  if alloc DEFAULT_INIT_ALLOC_ITEMS then
    let first := strtok (some str) [';'] { mem := mem, save := 0 }
    parse_loop alloc (mem.length + 1) first.1 first.2 [] 0 DEFAULT_INIT_ALLOC_ITEMS
  else
    some { ret := -1, commands := [], capacity := 0, mem := mem }

/-! ## `run_commands` -/

/-- The process-spawning facility `system()`: given the command strings it was
handed so far (oldest first) and the command string of this call, the status
it returns.  The value `-1` is its report of a launch failure. -/
abbrev Spawner := List (List Char) → List Char → Int

/-- What `run_commands` acts on: the line buffer, which trimming rewrites, and
the record of the command strings handed to `system()`, oldest first. -/
structure World where
  mem : List Char
  trace : List (List Char)
deriving DecidableEq, Repr

/-- The loop `while (end > cmd && isspace(*end)) { *end = 0; end--; }` of
`run_commands`, by recursion on `end`. -/
def trim_trailing (cmd : Nat) : Nat → List Char → List Char
  | 0, mem => mem
  | e + 1, mem =>
    if e + 1 > cmd && isspace (peek mem (e + 1)) then
      trim_trailing cmd e (mem.set (e + 1) NUL)
    else
      mem

/-- The trim step of `run_commands` for the command at address `cmd`: skip the
leading whitespace, then overwrite the trailing whitespace with terminators.
Returns the rewritten buffer and the advanced pointer `cmd`.  The value
`cmd + strlen(cmd) - 1` of `end` is computed in the naturals: for an empty
string it is below or equal to `cmd` either way, and the loop does not run. -/
def trim_command (mem : List Char) (cmd : Nat) : List Char × Nat :=
  let cmd := cmd + span isspace mem cmd
  let e := cmd + strlen mem cmd - 1
  (trim_trailing cmd e mem, cmd)

/-- The string literal `"exit"` that `run_commands` compares with. -/
def exitLiteral : List Char := "exit".toList

/-- The function `run_commands` of `cli.c` on the array `commands` of
`command_count` pointers, given as the list of its entries.  Returns the
value returned by the C function and the world it leaves. -/
def run_commands (system : Spawner) : List Nat → World → Int × World
  | [], w => (0, w)
  | c :: rest, w =>
    let t := trim_command w.mem c
    if cstr t.1 t.2 = exitLiteral then
      (1, { w with mem := t.1 })
    else if system w.trace (cstr t.1 t.2) = -1 then
      (-1, { mem := t.1, trace := w.trace ++ [cstr t.1 t.2] })
    else
      run_commands system rest { mem := t.1, trace := w.trace ++ [cstr t.1 t.2] }

/-- The trim step applied to a command given as a string: the string is laid
out in a buffer of its own, trimmed there, and read back. -/
def trim (c : List Char) : List Char :=
  let t := trim_command (lineBuffer c) 0
  cstr t.1 t.2

/-! ## The drivers: `run_batch_script` and `run_prompt_loop` -/

/-- The function `run_batch_script` of `cli.c`.  `script` lists the lines that
`getline` returns, in order, each with its newline when it has one; the end of
the list is the end of the file.  Each line is parsed in the buffer `getline`
fills: its characters followed by the terminator.  The second argument is the
record of the command strings handed to `system()` so far.  Returns the value returned by
the C function with the record after it; `none` when the loop of
`parse_commands` reaches its bound. -/
def run_batch_script (alloc : Nat → Bool) (system : Spawner) :
    List (List Char) → List (List Char) → Option (Int × List (List Char))
  | [], trace => some (0, trace)
  | line :: rest, trace =>
    match parse_commands alloc (lineBuffer line) 0 with
    | none => none
    | some r =>
      if r.ret = -1 then
        some (-1, trace)
      else
        let out := run_commands system r.commands { mem := r.mem, trace := trace }
        if out.1 ≠ 0 then
          some (out.1, out.2.trace)
        else
          run_batch_script alloc system rest out.2.trace

/-- The statement `line[strcspn(line, "\n")] = 0` of `run_prompt_loop`: the
first newline of the line, or else its terminator, is overwritten with a
terminator. -/
def strip_newline (line : List Char) : List Char :=
  line.set (strcspn line 0 ['\n']) NUL

/-- What the interactive shell has done so far: the record of the command
strings handed to `system()`, oldest first, and the number of diagnostics
printed by `perror("system")`. -/
structure Session where
  trace : List (List Char)
  diagnostics : Nat
deriving DecidableEq, Repr

/-- The `break` that ends the loop of `run_prompt_loop`: `getline` failed (end
of input), `parse_commands` failed, or the `exit` command was entered. -/
inductive LoopEnd where
  | endOfInput
  | parseFailure
  | exitCommand
deriving DecidableEq, Repr

/-- How `run_prompt_loop` ends: the session, the lines of the input that were
never read, and the `break` taken. -/
structure PromptResult where
  session : Session
  unread : List (List Char)
  stop : LoopEnd
deriving DecidableEq, Repr

/-- The function `run_prompt_loop` of `cli.c`.  `input` lists the lines that
`getline` returns from the standard input, in order; the end of the list is
the end of the input.  The prompt printed at every iteration is not recorded.
`none` when the loop of `parse_commands` reaches its bound. -/
def run_prompt_loop (alloc : Nat → Bool) (system : Spawner) :
    List (List Char) → Session → Option PromptResult
  | [], s => some { session := s, unread := [], stop := LoopEnd.endOfInput }
  | line :: rest, s =>
    match parse_commands alloc (strip_newline (lineBuffer line)) 0 with
    | none => none
    | some r =>
      if r.ret = -1 then
        some { session := s, unread := rest, stop := LoopEnd.parseFailure }
      else
        let out := run_commands system r.commands { mem := r.mem, trace := s.trace }
        if out.1 = -1 then
          run_prompt_loop alloc system rest
            { trace := out.2.trace, diagnostics := s.diagnostics + 1 }
        else if out.1 = 1 then
          some { session := { trace := out.2.trace, diagnostics := s.diagnostics },
                 unread := rest, stop := LoopEnd.exitCommand }
        else
          run_prompt_loop alloc system rest
            { trace := out.2.trace, diagnostics := s.diagnostics }

/-- The dispatch outcome of one line, given the buffer the driver passes to
`parse_commands`: the value `run_commands` returns on the Commands found, with
the record of invocations after it.  `none` when `parse_commands` does not
return a Command List. -/
def line_outcome (alloc : Nat → Bool) (system : Spawner) (buffer : List Char)
    (trace : List (List Char)) : Option (Int × List (List Char)) :=
  match parse_commands alloc buffer 0 with
  | none => none
  | some r =>
    if r.ret = -1 then
      none
    else
      let out := run_commands system r.commands { mem := r.mem, trace := trace }
      some (out.1, out.2.trace)

/-- The stores `(*commands)[command_count] = command` that the loop of
`parse_commands` performs, in order: for each, the write index `command_count`
and the capacity of the array at the time of the store.  The recursion is that
of `parse_loop`. -/
def parse_stores (alloc : Nat → Bool) :
    Nat → Option Nat → TokState → Nat → Nat → List (Nat × Nat)
  | 0, _, _, _, _ => []
  | _ + 1, none, _, _, _ => []
  | fuel + 1, some _, st, command_count, commands_capacity =>
    if command_count = commands_capacity then
      if alloc (commands_capacity * 2) then
        let next := strtok none [';'] st
        (command_count, commands_capacity * 2) ::
          parse_stores alloc fuel next.1 next.2 (command_count + 1) (commands_capacity * 2)
      else
        []
    else
      let next := strtok none [';'] st
      (command_count, commands_capacity) ::
        parse_stores alloc fuel next.1 next.2 (command_count + 1) commands_capacity

/-- The stores performed by `parse_commands` on the buffer `mem`. -/
def parse_commands_stores (alloc : Nat → Bool) (mem : List Char) (str : Nat) :
    List (Nat × Nat) :=
  if alloc DEFAULT_INIT_ALLOC_ITEMS then
    let first := strtok (some str) [';'] { mem := mem, save := 0 }
    parse_stores alloc (mem.length + 1) first.1 first.2 0 DEFAULT_INIT_ALLOC_ITEMS
  else
    []

/-- How two consecutive stores are related: the write index goes up by one, and
the capacity either stays or doubles, and doubles only when the write index
had reached it (the array was full). -/
def NextStore (a b : Nat × Nat) : Prop :=
  b.1 = a.1 + 1 ∧ (b.2 = a.2 ∨ (b.2 = 2 * a.2 ∧ b.1 = a.2))

/-! ## The words of the specification -/

/-- Whether a line has two adjacent `;`. -/
def adjacentSemicolons : List Char → Bool
  | a :: b :: l => (a == ';' && b == ';') || adjacentSemicolons (b :: l)
  | _ => false

/-- A line has no leading `;`, no trailing `;` and no two adjacent `;`. -/
def SemicolonsSeparate (line : List Char) : Prop :=
  line.head? ≠ some ';' ∧ line.getLast? ≠ some ';' ∧ adjacentSemicolons line = false

instance (line : List Char) : Decidable (SemicolonsSeparate line) :=
  inferInstanceAs (Decidable (_ ∧ _ ∧ _))

/-- The non-empty fields of a line delimited by `;`, in left-to-right order:
the line is split at every `;` and the empty pieces are left out. -/
def fields (line : List Char) : List (List Char) :=
  (line.splitOn ';').filter (fun f => !f.isEmpty)

/-- The trimmed Commands of a line: its non-empty fields, each trimmed. -/
def trimmedFields (line : List Char) : List (List Char) :=
  (fields line).map trim

/-! ## Descriptions used in the proofs

Each of these is proved below to agree with the code: `trimSpec` with the trim
step (`cstr_trim_command`), `dispatch` with `run_commands`
(`run_commands_eq_dispatch`). -/

/-- What the backward scan of the trim step leaves of a string: its trailing
whitespace is removed, except that the first character always stays. -/
def stripTail : List Char → List Char
  | [] => []
  | x :: t => x :: t.rdropWhile isspace

/-- The trim step described on strings: the leading whitespace is removed, then
the trailing whitespace. -/
def trimSpec (c : List Char) : List Char := stripTail (c.dropWhile isspace)

/-! ## Command Lists in memory -/

/-- The strings of a Command List: what one reads at each pointer. -/
def commandStrings (mem : List Char) (commands : List Nat) : List (List Char) :=
  commands.map (cstr mem)

/-- The trimmed strings of a Command List. -/
def trimmedCommands (mem : List Char) (commands : List Nat) : List (List Char) :=
  commands.map (fun p => trim (cstr mem p))

/-- The Commands of a Command List are views that do not overlap: of any two,
one ends before the other starts. -/
def Separate (mem : List Char) (commands : List Nat) : Prop :=
  commands.Pairwise (fun p q => p + strlen mem p ≤ q ∨ q + strlen mem q ≤ p)

instance (mem : List Char) (commands : List Nat) : Decidable (Separate mem commands) := by
  unfold Separate
  infer_instance

/-- The loop of `run_commands` on the trimmed strings alone: the value
returned and the record of invocations after it, from the record before it. -/
def dispatch (system : Spawner) :
    List (List Char) → List (List Char) → Int × List (List Char)
  | [], trace => (0, trace)
  | t :: ts, trace =>
    if t = exitLiteral then (1, trace)
    else if system trace t = -1 then (-1, trace ++ [t])
    else dispatch system ts (trace ++ [t])

/-! ## Examples -/

/-- An example of a Command List: the buffer of the line `ls;  exit  ; rm -rf /`
as `strtok` leaves it. -/
def exampleMem : List Char :=
  "ls".toList ++ NUL :: ("  exit  ".toList ++ NUL :: (" rm -rf /".toList ++ [NUL]))

/-- The pointers to the three Commands in `exampleMem`. -/
def exampleCommands : List Nat := [0, 3, 12]

/-- A second example: the buffer of the line `a; b ;c` as `strtok` leaves it. -/
def exampleMem2 : List Char :=
  "a".toList ++ NUL :: (" b ".toList ++ NUL :: ("c".toList ++ [NUL]))

/-- The pointers to the three Commands in `exampleMem2`. -/
def exampleCommands2 : List Nat := [0, 2, 6]

/-- A spawning facility that always succeeds with status 0. -/
def alwaysZero : Spawner := fun _ _ => 0

/-- A spawning facility that fails to launch the command `b` and succeeds with
status 0 on every other command. -/
def failsOnB : Spawner := fun _ c => if c = "b".toList then -1 else 0

/-- A spawning facility that fails to launch the empty command and succeeds with
status 0 on every other command. -/
def failsOnEmpty : Spawner := fun _ c => if c = [] then -1 else 0

/-- A spawning facility for which the command `false` ends with a non-zero
status (256, the wait status of exit code 1) and every other command with 0. -/
def falseIsNonZero : Spawner := fun _ c => if c = "false".toList then 256 else 0

/-! ## Basic facts about buffers -/

theorem peek_layout (pre : List Char) (x : Char) (post : List Char) (n : Nat)
    (hn : n = pre.length) : peek (pre ++ x :: post) n = x := by
  subst hn
  rw [peek, List.getD_eq_getElem?_getD, List.getElem?_append_right (le_refl _)]
  simp

theorem peek_end (pre : List Char) (n : Nat) (hn : n = pre.length) : peek pre n = NUL := by
  subst hn
  simp [peek, List.getD_eq_getElem?_getD]

theorem set_layout (pre : List Char) (x y : Char) (post : List Char) (n : Nat)
    (hn : n = pre.length) : (pre ++ x :: post).set n y = pre ++ y :: post := by
  subst hn
  simp

theorem takeWhile_stop (f : Char → Bool) (a : List Char) (x : Char) (post : List Char)
    (ha : ∀ c ∈ a, f c = true) (hx : f x = false) :
    (a ++ x :: post).takeWhile f = a := by
  induction a with
  | nil => simp [List.takeWhile, hx]
  | cons c cs ih =>
    have hc : f c = true := ha c (List.mem_cons_self _ _)
    have hcs : ∀ d ∈ cs, f d = true := fun d hd => ha d (List.mem_cons_of_mem _ hd)
    simp [List.takeWhile, hc, ih hcs]

theorem takeWhile_all (f : Char → Bool) (a : List Char) (ha : ∀ c ∈ a, f c = true) :
    a.takeWhile f = a := by
  induction a with
  | nil => rfl
  | cons c cs ih =>
    have hc : f c = true := ha c (List.mem_cons_self _ _)
    have hcs : ∀ d ∈ cs, f d = true := fun d hd => ha d (List.mem_cons_of_mem _ hd)
    simp [List.takeWhile, hc, ih hcs]

theorem span_layout (f : Char → Bool) (pre a : List Char) (x : Char) (post : List Char)
    (n : Nat) (hn : n = pre.length) (ha : ∀ c ∈ a, f c = true) (hx : f x = false) :
    span f (pre ++ a ++ x :: post) n = a.length := by
  subst hn
  simp [span, List.append_assoc, takeWhile_stop f a x post ha hx]

theorem span_layout_end (f : Char → Bool) (pre a : List Char)
    (n : Nat) (hn : n = pre.length) (ha : ∀ c ∈ a, f c = true) :
    span f (pre ++ a) n = a.length := by
  subst hn
  simp [span, takeWhile_all f a ha]

theorem ne_NUL_of_not_mem (s : List Char) (hs : NUL ∉ s) :
    ∀ c ∈ s, (c != NUL) = true := by
  intro c hc
  simp only [bne_iff_ne, ne_eq]
  intro h
  exact hs (h ▸ hc)

theorem cstr_layout (pre s post : List Char) (n : Nat) (hn : n = pre.length)
    (hs : NUL ∉ s) : cstr (pre ++ s ++ NUL :: post) n = s := by
  subst hn
  simp [cstr, List.append_assoc,
    takeWhile_stop (fun c => c != NUL) s NUL post (ne_NUL_of_not_mem s hs) (by decide)]

theorem cstr_layout_end (pre s : List Char) (n : Nat) (hn : n = pre.length)
    (hs : NUL ∉ s) : cstr (pre ++ s) n = s := by
  subst hn
  simp [cstr, takeWhile_all (fun c => c != NUL) s (ne_NUL_of_not_mem s hs)]

/-! ## What one call of `strtok` does -/

theorem strspn_semi (pre sk : List Char) (x : Char) (post : List Char) (n : Nat)
    (hn : n = pre.length) (hsk : ∀ c ∈ sk, c = ';') (hx : x ≠ ';') :
    strspn (pre ++ sk ++ x :: post) n [';'] = sk.length := by
  apply span_layout _ pre sk x post n hn
  · intro c hc
    rw [hsk c hc]
    decide
  · simp [hx]

theorem strcspn_semi (pre tok : List Char) (x : Char) (post : List Char) (n : Nat)
    (hn : n = pre.length) (htok : ∀ c ∈ tok, c ≠ ';' ∧ c ≠ NUL) (hx : x = ';' ∨ x = NUL) :
    strcspn (pre ++ tok ++ x :: post) n [';'] = tok.length := by
  apply span_layout _ pre tok x post n hn
  · intro c hc
    simp [(htok c hc).1, (htok c hc).2]
  · rcases hx with h | h <;> simp [h]

theorem strtok_none_spec (pre sk post : List Char) (sv : Nat) (hsv : sv = pre.length)
    (hsk : ∀ c ∈ sk, c = ';') :
    strtok none [';'] { mem := pre ++ sk ++ NUL :: post, save := sv }
      = (none, { mem := pre ++ sk ++ NUL :: post, save := sv + sk.length }) := by
  have h1 : strspn (pre ++ sk ++ NUL :: post) sv [';'] = sk.length :=
    strspn_semi pre sk NUL post sv hsv hsk (by decide)
  have h2 : peek (pre ++ sk ++ NUL :: post) (sv + sk.length) = NUL :=
    peek_layout (pre ++ sk) NUL post _ (by simp [hsv])
  simp only [strtok, h1, h2, if_true]

theorem strtok_last_spec (pre sk : List Char) (t : Char) (ts post : List Char) (sv : Nat)
    (hsv : sv = pre.length) (hsk : ∀ c ∈ sk, c = ';')
    (htok : ∀ c ∈ t :: ts, c ≠ ';' ∧ c ≠ NUL) :
    strtok none [';'] { mem := pre ++ sk ++ (t :: ts) ++ NUL :: post, save := sv }
      = (some (sv + sk.length),
          { mem := pre ++ sk ++ (t :: ts) ++ NUL :: post,
            save := sv + sk.length + (t :: ts).length }) := by
  have ht := htok t (List.mem_cons_self _ _)
  have hm : pre ++ sk ++ (t :: ts) ++ NUL :: post = pre ++ sk ++ t :: (ts ++ NUL :: post) := by
    simp
  have h1 : strspn (pre ++ sk ++ (t :: ts) ++ NUL :: post) sv [';'] = sk.length := by
    rw [hm]
    exact strspn_semi pre sk t _ sv hsv hsk ht.1
  have h2 : peek (pre ++ sk ++ (t :: ts) ++ NUL :: post) (sv + sk.length) = t := by
    rw [hm]
    exact peek_layout (pre ++ sk) t _ _ (by simp [hsv])
  have h3 : strcspn (pre ++ sk ++ (t :: ts) ++ NUL :: post) (sv + sk.length) [';']
      = (t :: ts).length :=
    strcspn_semi (pre ++ sk) (t :: ts) NUL post _ (by simp [hsv]) htok (Or.inr rfl)
  have h4 : peek (pre ++ sk ++ (t :: ts) ++ NUL :: post)
      (sv + sk.length + (t :: ts).length) = NUL :=
    peek_layout (pre ++ sk ++ (t :: ts)) NUL post _ (by simp [hsv, Nat.add_assoc])
  simp only [strtok, h1, h2, h3, h4, if_neg ht.2, if_true]

theorem strtok_mid_spec (pre sk : List Char) (t : Char) (ts post : List Char) (sv : Nat)
    (hsv : sv = pre.length) (hsk : ∀ c ∈ sk, c = ';')
    (htok : ∀ c ∈ t :: ts, c ≠ ';' ∧ c ≠ NUL) :
    strtok none [';'] { mem := pre ++ sk ++ (t :: ts) ++ ';' :: post, save := sv }
      = (some (sv + sk.length),
          { mem := pre ++ sk ++ (t :: ts) ++ NUL :: post,
            save := sv + sk.length + (t :: ts).length + 1 }) := by
  have ht := htok t (List.mem_cons_self _ _)
  have hm : pre ++ sk ++ (t :: ts) ++ ';' :: post = pre ++ sk ++ t :: (ts ++ ';' :: post) := by
    simp
  have h1 : strspn (pre ++ sk ++ (t :: ts) ++ ';' :: post) sv [';'] = sk.length := by
    rw [hm]
    exact strspn_semi pre sk t _ sv hsv hsk ht.1
  have h2 : peek (pre ++ sk ++ (t :: ts) ++ ';' :: post) (sv + sk.length) = t := by
    rw [hm]
    exact peek_layout (pre ++ sk) t _ _ (by simp [hsv])
  have h3 : strcspn (pre ++ sk ++ (t :: ts) ++ ';' :: post) (sv + sk.length) [';']
      = (t :: ts).length :=
    strcspn_semi (pre ++ sk) (t :: ts) ';' post _ (by simp [hsv]) htok (Or.inl rfl)
  have h4 : peek (pre ++ sk ++ (t :: ts) ++ ';' :: post)
      (sv + sk.length + (t :: ts).length) = ';' :=
    peek_layout (pre ++ sk ++ (t :: ts)) ';' post _ (by simp [hsv, Nat.add_assoc])
  have h5 : (pre ++ sk ++ (t :: ts) ++ ';' :: post).set
      (sv + sk.length + (t :: ts).length) NUL = pre ++ sk ++ (t :: ts) ++ NUL :: post :=
    set_layout (pre ++ sk ++ (t :: ts)) ';' NUL post _ (by simp [hsv, Nat.add_assoc])
  have h6 : ¬ (';' = NUL) := by decide
  simp only [strtok, h1, h2, h3, h4, h5, if_neg ht.2, if_neg h6]

/-! ## Fields of a line -/

theorem fields_nil : fields [] = [] := by
  simp [fields, List.splitOn, List.splitOnP_nil]

theorem fields_semi_cons (l : List Char) : fields (';' :: l) = fields l := by
  simp [fields, List.splitOn, List.splitOnP_cons]

theorem fields_skip (sk l : List Char) (hsk : ∀ c ∈ sk, c = ';') :
    fields (sk ++ l) = fields l := by
  induction sk with
  | nil => rfl
  | cons c cs ih =>
    have hc : c = ';' := hsk c (List.mem_cons_self _ _)
    subst hc
    rw [List.cons_append, fields_semi_cons]
    exact ih (fun d hd => hsk d (List.mem_cons_of_mem _ hd))

theorem fields_token_end (t : Char) (ts : List Char) (h : ∀ c ∈ t :: ts, c ≠ ';') :
    fields (t :: ts) = [t :: ts] := by
  have h1 : (t :: ts).splitOnP (fun c => c == ';') = [t :: ts] :=
    List.splitOnP_eq_single _ _ (fun c hc => by simpa using h c hc)
  simp [fields, List.splitOn, h1]

theorem fields_token_semi (t : Char) (ts post : List Char) (h : ∀ c ∈ t :: ts, c ≠ ';') :
    fields ((t :: ts) ++ ';' :: post) = (t :: ts) :: fields post := by
  have h1 : ((t :: ts) ++ ';' :: post).splitOnP (fun c => c == ';')
      = (t :: ts) :: post.splitOnP (fun c => c == ';') :=
    List.splitOnP_first _ _ (fun c hc => by simpa using h c hc) ';' (by simp) post
  simp only [fields, List.splitOn, h1]
  simp

/-- Every list is a run of characters satisfying `p` followed by nothing or by
a character that does not satisfy `p`. -/
theorem split_at_first (p : Char → Bool) (l : List Char) :
    ∃ a b, l = a ++ b ∧ (∀ c ∈ a, p c = true) ∧
      (b = [] ∨ ∃ x b2, b = x :: b2 ∧ p x = false) := by
  induction l with
  | nil => exact ⟨[], [], rfl, by simp, Or.inl rfl⟩
  | cons c cs ih =>
    by_cases hc : p c = true
    · obtain ⟨a, b, hab, ha, hb⟩ := ih
      refine ⟨c :: a, b, by simp [hab], ?_, hb⟩
      intro d hd
      rcases List.mem_cons.mp hd with h | h
      · rw [h]; exact hc
      · exact ha d h
    · exact ⟨[], c :: cs, rfl, by simp, Or.inr ⟨c, cs, rfl, by simpa using hc⟩⟩

/-- The three shapes of what remains of a line: only delimiters; delimiters and
a last token; delimiters, a token, a delimiter and the rest. -/
theorem line_shape (rest : List Char) :
    ∃ sk, (∀ c ∈ sk, c = ';') ∧
      (rest = sk ∨ ∃ t ts, (∀ c ∈ t :: ts, c ≠ ';') ∧
        (rest = sk ++ (t :: ts) ∨ ∃ post, rest = sk ++ (t :: ts) ++ ';' :: post)) := by
  obtain ⟨sk, b, hab, hsk, hb⟩ := split_at_first (fun c => c == ';') rest
  refine ⟨sk, fun c hc => by simpa using hsk c hc, ?_⟩
  rcases hb with hb | ⟨t, b2, hb, ht⟩
  · left
    simp [hab, hb]
  · right
    obtain ⟨ts, post, hab2, hts, hpost⟩ := split_at_first (fun c => c != ';') b2
    refine ⟨t, ts, ?_, ?_⟩
    · intro c hc
      rcases List.mem_cons.mp hc with h | h
      · rw [h]; simpa using ht
      · simpa using hts c h
    · rcases hpost with hp | ⟨x, post2, hp, hx⟩
      · left
        simp [hab, hb, hab2, hp]
      · right
        have hx2 : x = ';' := by simpa using hx
        exact ⟨post2, by simp [hab, hb, hab2, hp, hx2]⟩

/-! ## The loop of `parse_commands` -/

/-- One iteration of the loop when no allocation fails: the command is stored
and the next token is read. -/
theorem parse_loop_step (alloc : Nat → Bool) (halloc : ∀ n, alloc n = true) (fuel : Nat)
    (command : Nat) (st : TokState) (commands : List Nat) (count cap : Nat) :
    parse_loop alloc (fuel + 1) (some command) st commands count cap
      = parse_loop alloc fuel (strtok none [';'] st).1 (strtok none [';'] st).2
          (commands ++ [command]) (count + 1) (if count = cap then cap * 2 else cap) := by
  by_cases h : count = cap
  · simp [parse_loop, h, halloc]
  · simp [parse_loop, h]

/-- The loop of `parse_commands`, started on a buffer of which `pre` has been
consumed and `rest` is left, ends within `rest.length + 1` iterations; the
pointers it appends name, in the final buffer, the non-empty fields of `rest`,
and the final buffer still starts with `pre`. -/
theorem parse_loop_spec (alloc : Nat → Bool) (halloc : ∀ n, alloc n = true) :
    ∀ (fuel : Nat) (rest pre : List Char) (commands : List Nat) (count cap : Nat),
      NUL ∉ rest → rest.length < fuel →
      ∃ (ptrs : List Nat) (rest2 : List Char) (cap2 : Nat),
        parse_loop alloc fuel
            (strtok none [';'] { mem := pre ++ rest ++ [NUL], save := pre.length }).1
            (strtok none [';'] { mem := pre ++ rest ++ [NUL], save := pre.length }).2
            commands count cap
          = some { ret := ((count + ptrs.length : Nat) : Int), commands := commands ++ ptrs,
                   capacity := cap2, mem := pre ++ rest2 ++ [NUL] }
        ∧ rest2.length = rest.length
        ∧ ptrs.map (cstr (pre ++ rest2 ++ [NUL])) = fields rest
        ∧ (∀ q ∈ ptrs, pre.length ≤ q)
        ∧ Separate (pre ++ rest2 ++ [NUL]) ptrs := by
  intro fuel
  induction fuel with
  | zero => intro rest pre commands count cap _ h; exact absurd h (Nat.not_lt_zero _)
  | succ fuel ih =>
    intro rest pre commands count cap hnul hfuel
    obtain ⟨sk, hsk, hshape⟩ := line_shape rest
    rcases hshape with hr | ⟨t, ts, htok, hr | ⟨post, hr⟩⟩
    · -- only delimiters are left: `strtok` returns `NULL`
      rw [hr] at hnul hfuel ⊢
      refine ⟨[], sk, cap, ?_, rfl, ?_, by simp, by simp [Separate]⟩
      · rw [strtok_none_spec pre sk [] pre.length rfl hsk]
        simp [parse_loop]
      · have h := fields_skip sk [] hsk
        rw [List.append_nil] at h
        rw [h, fields_nil]
        rfl
    · -- a last token, ending at the terminator of the line
      subst hr
      have htok2 : ∀ c ∈ t :: ts, c ≠ ';' ∧ c ≠ NUL := fun c hc =>
        ⟨htok c hc, fun h => hnul (List.mem_append_right _ (h ▸ hc))⟩
      have hst := strtok_last_spec pre sk t ts [] pre.length rfl hsk htok2
      rw [← List.append_assoc] at *
      rw [hst]
      simp only []
      rw [parse_loop_step alloc halloc]
      have hlen : pre.length + sk.length + (t :: ts).length = (pre ++ sk ++ (t :: ts)).length := by
        simp [Nat.add_assoc]
      have hmem : pre ++ sk ++ (t :: ts) ++ [NUL] = pre ++ sk ++ (t :: ts) ++ [] ++ [NUL] := by
        simp
      rw [hlen, hmem]
      obtain ⟨ptrs, rest2, cap2, hrun, hl, hmap, _, _⟩ :=
        ih [] (pre ++ sk ++ (t :: ts)) (commands ++ [pre.length + sk.length]) (count + 1)
          (if count = cap then cap * 2 else cap) (by simp) (by
            simp only [List.length_append, List.length_cons] at hfuel
            simp only [List.length_nil]
            omega)
      have hr2 : rest2 = [] := List.eq_nil_of_length_eq_zero (by simpa using hl)
      subst hr2
      have hp : ptrs = [] := by
        rw [fields_nil] at hmap
        exact List.map_eq_nil_iff.mp hmap
      subst hp
      refine ⟨[pre.length + sk.length], sk ++ (t :: ts), cap2, ?_, rfl, ?_, by simp,
        by simp [Separate]⟩
      · rw [hrun]
        simp [List.append_assoc]
      · rw [fields_skip sk (t :: ts) hsk, fields_token_end t ts htok]
        have hc := cstr_layout (pre ++ sk) (t :: ts) [] (pre.length + sk.length) (by simp)
          (fun h => (htok2 NUL h).2 rfl)
        simp only [List.map_cons, List.map_nil]
        rw [← List.append_assoc, hc]
    · -- a token followed by a delimiter, which becomes a terminator
      subst hr
      have htok2 : ∀ c ∈ t :: ts, c ≠ ';' ∧ c ≠ NUL := fun c hc =>
        ⟨htok c hc, fun h => hnul (List.mem_append_left _ (List.mem_append_right _ (h ▸ hc)))⟩
      have hpost : NUL ∉ post := fun h =>
        hnul (List.mem_append_right _ (List.mem_cons_of_mem _ h))
      have hst := strtok_mid_spec pre sk t ts (post ++ [NUL]) pre.length rfl hsk htok2
      have hm1 : pre ++ (sk ++ (t :: ts) ++ ';' :: post) ++ [NUL]
          = pre ++ sk ++ (t :: ts) ++ ';' :: (post ++ [NUL]) := by simp
      rw [hm1, hst]
      simp only []
      rw [parse_loop_step alloc halloc]
      have hlen : pre.length + sk.length + (t :: ts).length + 1
          = (pre ++ sk ++ (t :: ts) ++ [NUL]).length := by
        simp [Nat.add_assoc]
      have hmem : pre ++ sk ++ (t :: ts) ++ NUL :: (post ++ [NUL])
          = pre ++ sk ++ (t :: ts) ++ [NUL] ++ post ++ [NUL] := by
        simp
      rw [hlen, hmem]
      obtain ⟨ptrs, rest2, cap2, hrun, hl, hmap, hge, hsep⟩ :=
        ih post (pre ++ sk ++ (t :: ts) ++ [NUL]) (commands ++ [pre.length + sk.length])
          (count + 1) (if count = cap then cap * 2 else cap) hpost (by
            simp only [List.length_append, List.length_cons] at hfuel
            omega)
      have hfin : pre ++ sk ++ (t :: ts) ++ [NUL] ++ rest2 ++ [NUL]
          = pre ++ (sk ++ (t :: ts) ++ NUL :: rest2) ++ [NUL] := by simp
      have hc := cstr_layout (pre ++ sk) (t :: ts) (rest2 ++ [NUL]) (pre.length + sk.length)
        (by simp) (fun h => (htok2 NUL h).2 rfl)
      have hm2 : pre ++ sk ++ (t :: ts) ++ [NUL] ++ rest2 ++ [NUL]
          = pre ++ sk ++ (t :: ts) ++ NUL :: (rest2 ++ [NUL]) := by simp
      rw [← hm2] at hc
      have hge2 : ∀ q ∈ ptrs, pre.length + sk.length + (t :: ts).length + 1 ≤ q := by
        intro q hq
        have := hge q hq
        simp only [List.length_append, List.length_cons, List.length_nil] at this ⊢
        omega
      refine ⟨(pre.length + sk.length) :: ptrs, sk ++ (t :: ts) ++ NUL :: rest2, cap2,
        ?_, ?_, ?_, ?_, ?_⟩
      · rw [hrun, hfin]
        simp [List.append_assoc, Nat.add_assoc, Nat.add_comm 1]
      · simp [hl]
      · have hf : fields (sk ++ (t :: ts) ++ ';' :: post) = (t :: ts) :: fields post := by
          rw [List.append_assoc, fields_skip sk _ hsk, fields_token_semi t ts post htok]
        rw [hf, ← hfin, List.map_cons, hmap, hc]
      · intro q hq
        rcases List.mem_cons.mp hq with h | h
        · rw [h]; omega
        · have := hge2 q h
          omega
      · rw [← hfin]
        unfold Separate at hsep ⊢
        rw [List.pairwise_cons]
        refine ⟨?_, hsep⟩
        intro q hq
        left
        have := hge2 q hq
        unfold strlen
        rw [hc]
        omega

/-- When no allocation fails, `parse_commands` returns, and what it returns are
the non-empty fields of the line: their number, and pointers to them in order. -/
theorem parse_commands_spec (alloc : Nat → Bool) (halloc : ∀ n, alloc n = true)
    (line : List Char) (hline : NUL ∉ line) :
    ∃ r, parse_commands alloc (lineBuffer line) 0 = some r ∧
      r.ret = ((fields line).length : Int) ∧
      r.commands.length = (fields line).length ∧
      r.commands.map (cstr r.mem) = fields line ∧
      r.mem.length = (lineBuffer line).length ∧
      Separate r.mem r.commands := by
  obtain ⟨ptrs, rest2, cap2, hrun, hl, hmap, _, hsep⟩ :=
    parse_loop_spec alloc halloc ((lineBuffer line).length + 1) line [] [] 0
      DEFAULT_INIT_ALLOC_ITEMS hline (by simp [lineBuffer]; omega)
  have hlen : ptrs.length = (fields line).length := by
    rw [← hmap, List.length_map]
  have hpc : parse_commands alloc (lineBuffer line) 0
      = some { ret := ((0 + ptrs.length : Nat) : Int), commands := [] ++ ptrs,
               capacity := cap2, mem := [] ++ rest2 ++ [NUL] } := by
    simp only [parse_commands, halloc, if_true]
    exact hrun
  refine ⟨_, hpc, ?_, ?_, ?_, ?_, ?_⟩
  · simp [hlen]
  · simpa using hlen
  · simpa using hmap
  · simp [lineBuffer, hl]
  · simpa using hsep

/-! ## Writing a terminator into a buffer -/

theorem NUL_not_mem_cstr (mem : List Char) (p : Nat) : NUL ∉ cstr mem p := by
  intro h
  have := List.mem_takeWhile_imp h
  simp at this

theorem takeWhile_set_NUL (L : List Char) : ∀ k : Nat,
    (L.set k NUL).takeWhile (fun c => c != NUL)
      = if k < (L.takeWhile (fun c => c != NUL)).length
        then (L.takeWhile (fun c => c != NUL)).take k
        else L.takeWhile (fun c => c != NUL) := by
  induction L with
  | nil => intro k; simp
  | cons c cs ih =>
    intro k
    cases k with
    | zero =>
      by_cases hc : c = NUL
      · simp [List.takeWhile, hc]
      · simp [List.takeWhile, hc]
    | succ k =>
      by_cases hc : c = NUL
      · simp [List.takeWhile, hc]
      · simp only [List.set_cons_succ, List.takeWhile_cons, bne_iff_ne, ne_eq, hc,
          not_false_eq_true, decide_True, if_true, ih k, List.length_cons,
          Nat.add_lt_add_iff_right]
        split <;> simp

/-- Reading a string after a terminator was written at address `e`: the string
is cut at `e` when `e` lies inside it and is unchanged otherwise. -/
theorem cstr_set (mem : List Char) (e q : Nat) :
    cstr (mem.set e NUL) q
      = if q ≤ e ∧ e < q + strlen mem q then (cstr mem q).take (e - q) else cstr mem q := by
  unfold strlen cstr
  rw [List.drop_set]
  by_cases h : e < q
  · have h2 : ¬ (q ≤ e ∧ e < q + ((mem.drop q).takeWhile (fun c => c != NUL)).length) :=
      fun hh => absurd hh.1 (Nat.not_le.mpr h)
    rw [if_pos h, if_neg h2]
  · rw [if_neg h, takeWhile_set_NUL]
    have hq : q ≤ e := Nat.le_of_not_lt h
    by_cases h3 : e - q < ((mem.drop q).takeWhile (fun c => c != NUL)).length
    · rw [if_pos h3, if_pos ⟨hq, by omega⟩]
    · rw [if_neg h3, if_neg (fun hh => h3 (by omega))]

theorem cstr_set_outside (mem : List Char) (e q : Nat) (h : e < q ∨ q + strlen mem q ≤ e) :
    cstr (mem.set e NUL) q = cstr mem q := by
  rw [cstr_set, if_neg]
  intro hh
  omega

theorem drop_eq_cstr_append (mem : List Char) (q : Nat) :
    mem.drop q = cstr mem q ++ (mem.drop q).dropWhile (fun c => c != NUL) := by
  unfold cstr
  exact (List.takeWhile_append_dropWhile _ _).symm

theorem peek_of_cstr (mem : List Char) (q : Nat) (a : List Char) (y : Char) (b : List Char)
    (h : cstr mem q = a ++ y :: b) : peek mem (q + a.length) = y := by
  have hd := drop_eq_cstr_append mem q
  rw [h] at hd
  have h1 : (mem.drop q)[a.length]? = some y := by
    rw [hd, List.append_assoc, List.getElem?_append_right (le_refl _)]
    simp
  rw [List.getElem?_drop] at h1
  simp [peek, List.getD_eq_getElem?_getD, h1]

theorem cstr_set_last (mem : List Char) (q : Nat) (a : List Char) (y : Char)
    (h : cstr mem q = a ++ [y]) : cstr (mem.set (q + a.length) NUL) q = a := by
  rw [cstr_set, if_pos, h]
  · simp
  · simp [strlen, h]

/-! ## The trim step -/

theorem isspace_ne_NUL (c : Char) (h : isspace c = true) : (c != NUL) = true := by
  simp only [bne_iff_ne, ne_eq]
  intro hc
  rw [hc] at h
  exact absurd h (by decide)

theorem takeWhile_after_spaces (L : List Char) :
    (L.drop (L.takeWhile isspace).length).takeWhile (fun c => c != NUL)
      = (L.takeWhile (fun c => c != NUL)).dropWhile isspace := by
  induction L with
  | nil => rfl
  | cons c cs ih =>
    by_cases hs : isspace c = true
    · have hn := isspace_ne_NUL c hs
      simp [List.takeWhile, List.dropWhile, hs, hn, ih]
    · by_cases hn : (c != NUL) = true
      · simp [List.takeWhile, List.dropWhile, hs, hn]
      · simp [List.takeWhile, List.dropWhile, hs, hn]

/-- Skipping the leading whitespace of the string at `p` leaves the string
without its leading whitespace. -/
theorem cstr_skip_spaces (mem : List Char) (p : Nat) :
    cstr mem (p + span isspace mem p) = (cstr mem p).dropWhile isspace := by
  unfold cstr span
  rw [← List.drop_drop]
  exact takeWhile_after_spaces (mem.drop p)

theorem length_after_spaces (L : List Char) :
    (L.takeWhile isspace).length
        + ((L.drop (L.takeWhile isspace).length).takeWhile (fun c => c != NUL)).length
      = (L.takeWhile (fun c => c != NUL)).length := by
  induction L with
  | nil => rfl
  | cons c cs ih =>
    by_cases hs : isspace c = true
    · have hn := isspace_ne_NUL c hs
      simp only [List.takeWhile, hs, hn, List.length_cons, List.drop_succ_cons]
      omega
    · simp [List.takeWhile, hs]

/-- The end of the string is where it was before the leading whitespace was
skipped. -/
theorem strlen_skip_spaces (mem : List Char) (p : Nat) :
    span isspace mem p + strlen mem (p + span isspace mem p) = strlen mem p := by
  unfold strlen cstr span
  rw [← List.drop_drop]
  exact length_after_spaces (mem.drop p)

theorem trim_trailing_noop (cmd : Nat) (mem : List Char) :
    ∀ e : Nat, e ≤ cmd → trim_trailing cmd e mem = mem := by
  intro e he
  cases e with
  | zero => rfl
  | succ e =>
    have : ¬ (e + 1 > cmd) := by omega
    simp [trim_trailing, this]

theorem stripTail_short (s : List Char) (h : s.length ≤ 1) : stripTail s = s := by
  match s, h with
  | [], _ => rfl
  | [x], _ => simp [stripTail, List.rdropWhile_nil]
  | _ :: _ :: _, h => simp at h

/-- The backward scan, started at the last character of the string at `cmd`,
leaves at `cmd` the string without its trailing whitespace. -/
theorem cstr_trim_trailing (cmd : Nat) : ∀ (e : Nat) (mem : List Char),
    e = cmd + strlen mem cmd - 1 →
    cstr (trim_trailing cmd e mem) cmd = stripTail (cstr mem cmd) := by
  intro e
  induction e with
  | zero =>
    intro mem h
    have hl : (cstr mem cmd).length ≤ 1 := by unfold strlen at h; omega
    rw [stripTail_short _ hl]
    rfl
  | succ e ih =>
    intro mem h
    by_cases hle : e + 1 ≤ cmd
    · have hl : (cstr mem cmd).length ≤ 1 := by unfold strlen at h; omega
      rw [trim_trailing_noop cmd mem (e + 1) hle, stripTail_short _ hl]
    · have hlen : (cstr mem cmd).length = e + 2 - cmd := by unfold strlen at h; omega
      -- the string has a first character and a last one
      obtain ⟨x, t, hxt⟩ : ∃ x t, cstr mem cmd = x :: t := by
        cases hc : cstr mem cmd with
        | nil => rw [hc] at hlen; simp at hlen; omega
        | cons x t => exact ⟨x, t, rfl⟩
      have htne : t ≠ [] := by
        intro ht
        rw [hxt, ht] at hlen
        simp at hlen
        omega
      obtain ⟨t2, y, hty⟩ : ∃ t2 y, t = t2 ++ [y] :=
        ⟨t.dropLast, t.getLast htne, (List.dropLast_append_getLast htne).symm⟩
      have hs : cstr mem cmd = (x :: t2) ++ [y] := by rw [hxt, hty]; rfl
      have hidx : e + 1 = cmd + (x :: t2).length := by
        rw [hs] at hlen
        simp only [List.length_append, List.length_cons, List.length_nil] at hlen ⊢
        omega
      have hpeek : peek mem (e + 1) = y := by
        rw [hidx]
        exact peek_of_cstr mem cmd (x :: t2) y [] hs
      by_cases hy : isspace y = true
      · have hgt : e + 1 > cmd := by omega
        have hstep : trim_trailing cmd (e + 1) mem
            = trim_trailing cmd e (mem.set (e + 1) NUL) := by
          simp [trim_trailing, hgt, hpeek, hy]
        have hcut : cstr (mem.set (e + 1) NUL) cmd = x :: t2 := by
          rw [hidx]
          exact cstr_set_last mem cmd (x :: t2) y hs
        rw [hstep, ih (mem.set (e + 1) NUL) (by
          unfold strlen
          rw [hcut]
          simp only [List.length_cons] at hidx ⊢
          omega), hcut, hxt, hty]
        simp only [stripTail]
        rw [List.rdropWhile_concat_pos _ _ _ hy]
      · have hstep : trim_trailing cmd (e + 1) mem = mem := by
          simp [trim_trailing, hpeek, hy]
        rw [hstep, hxt, hty]
        simp only [stripTail]
        rw [List.rdropWhile_concat_neg _ _ _ hy]

/-- The backward scan does not change a string that lies wholly after the
scanned addresses or wholly before them. -/
theorem cstr_trim_trailing_frame (cmd q : Nat) : ∀ (e : Nat) (mem : List Char),
    (e < q ∨ q + strlen mem q ≤ cmd + 1) →
    cstr (trim_trailing cmd e mem) q = cstr mem q := by
  intro e
  induction e with
  | zero => intro mem _; rfl
  | succ e ih =>
    intro mem h
    by_cases hc : (e + 1 > cmd && isspace (peek mem (e + 1))) = true
    · have hgt : e + 1 > cmd := by
        simp only [Bool.and_eq_true, decide_eq_true_eq] at hc
        exact hc.1
      have hset : cstr (mem.set (e + 1) NUL) q = cstr mem q :=
        cstr_set_outside mem (e + 1) q (by omega)
      have hstep : trim_trailing cmd (e + 1) mem
          = trim_trailing cmd e (mem.set (e + 1) NUL) := by
        simp only [trim_trailing, hc, if_true]
      rw [hstep, ih (mem.set (e + 1) NUL) (by
        unfold strlen
        rw [hset]
        unfold strlen at h
        omega), hset]
    · have hstep : trim_trailing cmd (e + 1) mem = mem := by
        simp only [trim_trailing, hc]
        rfl
      rw [hstep]

/-- The string the trim step leaves at the advanced pointer. -/
theorem cstr_trim_command (mem : List Char) (p : Nat) :
    cstr (trim_command mem p).1 (trim_command mem p).2 = trimSpec (cstr mem p) := by
  simp only [trim_command, trimSpec]
  rw [cstr_trim_trailing _ _ mem rfl, cstr_skip_spaces]

theorem trim_eq_trimSpec (c : List Char) (hc : NUL ∉ c) : trim c = trimSpec c := by
  unfold trim
  rw [cstr_trim_command]
  have h : cstr (lineBuffer c) 0 = c := by
    have := cstr_layout [] c [] 0 rfl hc
    simpa [lineBuffer] using this
  rw [h]

/-- Trimming in place gives what trimming the string on its own gives. -/
theorem cstr_trim_command_eq_trim (mem : List Char) (p : Nat) :
    cstr (trim_command mem p).1 (trim_command mem p).2 = trim (cstr mem p) := by
  rw [cstr_trim_command, trim_eq_trimSpec _ (NUL_not_mem_cstr mem p)]

/-- Trimming the command at `p` does not change a string that does not overlap
it. -/
theorem cstr_trim_command_frame (mem : List Char) (p q : Nat)
    (h : p + strlen mem p ≤ q ∨ q + strlen mem q ≤ p) :
    cstr (trim_command mem p).1 q = cstr mem q := by
  simp only [trim_command]
  have hlen := strlen_skip_spaces mem p
  by_cases h0 : strlen mem (p + span isspace mem p) = 0
  · rw [trim_trailing_noop _ _ _ (by omega)]
  · apply cstr_trim_trailing_frame
    rcases h with h | h
    · left; omega
    · right; omega

theorem separate_trim_command (mem : List Char) (p : Nat) (rest : List Nat)
    (h : Separate mem (p :: rest)) :
    Separate (trim_command mem p).1 rest ∧
      ∀ q ∈ rest, cstr (trim_command mem p).1 q = cstr mem q := by
  unfold Separate at h ⊢
  rw [List.pairwise_cons] at h
  have hfr : ∀ q ∈ rest, cstr (trim_command mem p).1 q = cstr mem q :=
    fun q hq => cstr_trim_command_frame mem p q (h.1 q hq)
  refine ⟨?_, hfr⟩
  refine List.Pairwise.imp_of_mem ?_ h.2
  intro a b ha hb hab
  unfold strlen at *
  rw [hfr a ha, hfr b hb]
  exact hab

/-- On a Command List of views that do not overlap, `run_commands` returns the
value and makes the invocations that `dispatch` computes from the trimmed
strings. -/
theorem run_commands_eq_dispatch (system : Spawner) :
    ∀ (commands : List Nat) (mem : List Char) (trace : List (List Char)),
      Separate mem commands →
      ((run_commands system commands { mem := mem, trace := trace }).1,
        (run_commands system commands { mem := mem, trace := trace }).2.trace)
        = dispatch system (trimmedCommands mem commands) trace := by
  intro commands
  induction commands with
  | nil => intro mem trace _; rfl
  | cons p rest ih =>
    intro mem trace hsep
    obtain ⟨hsep2, hfr⟩ := separate_trim_command mem p rest hsep
    have htl : trimmedCommands (trim_command mem p).1 rest = trimmedCommands mem rest := by
      unfold trimmedCommands
      apply List.map_congr_left
      intro q hq
      rw [hfr q hq]
    have ht := cstr_trim_command_eq_trim mem p
    simp only [run_commands, trimmedCommands, List.map_cons, dispatch, ht]
    by_cases h1 : trim (cstr mem p) = exitLiteral
    · simp only [h1, if_true]
    · simp only [h1, if_false]
      by_cases h2 : system trace (trim (cstr mem p)) = -1
      · simp only [h2, if_true]
      · simp only [h2, if_false]
        have := ih (trim_command mem p).1 (trace ++ [trim (cstr mem p)]) hsep2
        rw [htl] at this
        exact this

/-! ## The control flow of `run_commands` -/

/-- Commands that are neither `exit` nor a launch failure are all invoked, and
the loop goes on with what follows them. -/
theorem dispatch_append (system : Spawner) :
    ∀ (A B : List (List Char)) (trace : List (List Char)),
      (∀ j t, A[j]? = some t → t ≠ exitLiteral ∧ system (trace ++ A.take j) t ≠ -1) →
      dispatch system (A ++ B) trace = dispatch system B (trace ++ A) := by
  intro A
  induction A with
  | nil => intro B trace _; simp
  | cons a A ih =>
    intro B trace h
    have h0 := h 0 a (by simp)
    simp only [List.take_zero, List.append_nil] at h0
    have hrest : ∀ j t, A[j]? = some t →
        t ≠ exitLiteral ∧ system ((trace ++ [a]) ++ A.take j) t ≠ -1 := by
      intro j t hj
      have := h (j + 1) t (by simpa using hj)
      simpa [List.append_assoc] using this
    rw [List.cons_append]
    simp only [dispatch, if_neg h0.1, if_neg h0.2]
    rw [ih B (trace ++ [a]) hrest]
    simp [List.append_assoc]

theorem dispatch_all (system : Spawner) (T : List (List Char)) (trace : List (List Char))
    (h : ∀ j t, T[j]? = some t → t ≠ exitLiteral ∧ system (trace ++ T.take j) t ≠ -1) :
    dispatch system T trace = (0, trace ++ T) := by
  have := dispatch_append system T [] trace h
  rw [List.append_nil] at this
  rw [this]
  rfl

/-- A list with an entry at index `i` is what comes before, the entry, and what
comes after. -/
theorem split_at_index (T : List (List Char)) (i : Nat) (t : List Char)
    (h : T[i]? = some t) : T = T.take i ++ t :: T.drop (i + 1) := by
  obtain ⟨hi, ht⟩ := List.getElem?_eq_some.mp h
  rw [← ht, ← List.drop_eq_getElem_cons hi, List.take_append_drop]

theorem pass_before (system : Spawner) (T : List (List Char)) (i : Nat)
    (trace : List (List Char))
    (h : ∀ j t, j < i → T[j]? = some t →
      t ≠ exitLiteral ∧ system (trace ++ T.take j) t ≠ -1) :
    ∀ j t, (T.take i)[j]? = some t →
      t ≠ exitLiteral ∧ system (trace ++ (T.take i).take j) t ≠ -1 := by
  intro j t hj
  rw [List.getElem?_take] at hj
  by_cases hji : j < i
  · rw [if_pos hji] at hj
    have := h j t hji hj
    rw [List.take_take, Nat.min_eq_left (Nat.le_of_lt hji)]
    exact this
  · rw [if_neg hji] at hj
    exact absurd hj (by simp)

/-- The loop stops at the first `exit`. -/
theorem dispatch_exit (system : Spawner) (T : List (List Char)) (i : Nat)
    (trace : List (List Char)) (hexit : T[i]? = some exitLiteral)
    (h : ∀ j t, j < i → T[j]? = some t →
      t ≠ exitLiteral ∧ system (trace ++ T.take j) t ≠ -1) :
    dispatch system T trace = (1, trace ++ T.take i) := by
  have hsplit := split_at_index T i _ hexit
  have hrun := dispatch_append system (T.take i) (exitLiteral :: T.drop (i + 1)) trace
    (pass_before system T i trace h)
  rw [← hsplit] at hrun
  rw [hrun]
  simp [dispatch]

/-- The loop stops at the first launch failure. -/
theorem dispatch_failure (system : Spawner) (T : List (List Char)) (i : Nat)
    (trace : List (List Char)) (t : List Char) (hi : T[i]? = some t)
    (hne : t ≠ exitLiteral) (hfail : system (trace ++ T.take i) t = -1)
    (h : ∀ j t, j < i → T[j]? = some t →
      t ≠ exitLiteral ∧ system (trace ++ T.take j) t ≠ -1) :
    dispatch system T trace = (-1, trace ++ T.take (i + 1)) := by
  have hsplit := split_at_index T i _ hi
  have hrun := dispatch_append system (T.take i) (t :: T.drop (i + 1)) trace
    (pass_before system T i trace h)
  rw [← hsplit] at hrun
  rw [hrun]
  simp only [dispatch, if_neg hne, hfail, if_true]
  obtain ⟨hlt, ht⟩ := List.getElem?_eq_some.mp hi
  rw [List.take_succ, hi]
  simp [List.append_assoc]

/-- The invocations are always a prefix of the trimmed commands, and all of
them when the loop runs to its end. -/
theorem dispatch_prefix (system : Spawner) :
    ∀ (T : List (List Char)) (trace : List (List Char)),
      ∃ n, n ≤ T.length ∧ (dispatch system T trace).2 = trace ++ T.take n ∧
        ((dispatch system T trace).1 = 0 → n = T.length) := by
  intro T
  induction T with
  | nil => intro trace; exact ⟨0, by simp [dispatch]⟩
  | cons t ts ih =>
    intro trace
    by_cases h1 : t = exitLiteral
    · exact ⟨0, by simp [dispatch, h1]⟩
    · by_cases h2 : system trace t = -1
      · exact ⟨1, by simp [dispatch, h1, h2]⟩
      · obtain ⟨n, hn, htr, hret⟩ := ih (trace ++ [t])
        refine ⟨n + 1, by simpa using hn, ?_, ?_⟩
        · simp only [dispatch, if_neg h1, if_neg h2, htr]
          simp [List.append_assoc]
        · simp only [dispatch, if_neg h1, if_neg h2]
          intro h
          simpa using hret h

/-- Why the loop stops where it stops: the invocations are a prefix of the
trimmed commands; they are all of them when no command is `exit` and no spawn
fails; and when they are fewer, the next command is `exit` or the last spawn
failed. -/
theorem dispatch_stop_reason (system : Spawner) :
    ∀ (T : List (List Char)) (trace : List (List Char)),
      ∃ n, n ≤ T.length ∧ (dispatch system T trace).2 = trace ++ T.take n ∧
        ((dispatch system T trace).1 = 0 → n = T.length) ∧
        (n < T.length →
          T[n]? = some exitLiteral ∨
          ∃ m t, n = m + 1 ∧ T[m]? = some t ∧ system (trace ++ T.take m) t = -1) := by
  intro T
  induction T with
  | nil => intro trace; exact ⟨0, by simp [dispatch]⟩
  | cons t ts ih =>
    intro trace
    by_cases h1 : t = exitLiteral
    · refine ⟨0, by simp, by simp [dispatch, h1], by simp [dispatch, h1], ?_⟩
      intro _
      left
      simp [h1]
    · by_cases h2 : system trace t = -1
      · refine ⟨1, by simp, by simp [dispatch, h1, h2], by simp [dispatch, h1, h2], ?_⟩
        intro _
        right
        exact ⟨0, t, rfl, by simp, by simpa using h2⟩
      · obtain ⟨n, hn, htr, hret, hwhy⟩ := ih (trace ++ [t])
        refine ⟨n + 1, by simpa using hn, ?_, ?_, ?_⟩
        · simp only [dispatch, if_neg h1, if_neg h2, htr]
          simp [List.append_assoc]
        · simp only [dispatch, if_neg h1, if_neg h2]
          intro h
          simpa using hret h
        · intro hlt
          have hlt2 : n < ts.length := by simpa using hlt
          rcases hwhy hlt2 with hx | ⟨m, u, hm, hu, hfail⟩
          · left
            simpa using hx
          · right
            refine ⟨m + 1, u, by omega, by simpa using hu, ?_⟩
            simpa [List.append_assoc] using hfail

theorem dropWhile_head_not (p : Char → Bool) :
    ∀ (l : List Char) (x : Char) (t : List Char), l.dropWhile p = x :: t → p x = false := by
  intro l
  induction l with
  | nil => intro x t h; simp at h
  | cons c cs ih =>
    intro x t h
    by_cases hc : p c = true
    · rw [List.dropWhile_cons_of_pos hc] at h
      exact ih x t h
    · rw [List.dropWhile_cons_of_neg hc] at h
      obtain ⟨h1, _⟩ := List.cons.inj h
      rw [← h1]
      simpa using hc

theorem trimSpec_idempotent (s : List Char) : trimSpec (trimSpec s) = trimSpec s := by
  unfold trimSpec
  cases h : s.dropWhile isspace with
  | nil => rfl
  | cons x t =>
    have hx : ¬ (isspace x = true) := by
      rw [dropWhile_head_not isspace s x t h]
      simp
    simp only [stripTail]
    rw [List.dropWhile_cons_of_neg hx]
    simp only [stripTail]
    rw [List.rdropWhile_idempotent]

theorem NUL_not_mem_trim (c : List Char) : NUL ∉ trim c := by
  unfold trim
  exact NUL_not_mem_cstr _ _

theorem trim_trim (c : List Char) : trim (trim c) = trim c := by
  rw [trim_eq_trimSpec (trim c) (NUL_not_mem_trim c)]
  unfold trim
  rw [cstr_trim_command, trimSpec_idempotent]

/-- Splitting a line and dispatching the result: `parse_commands` returns the
non-empty fields of the line, and `run_commands` on them returns the value and
makes the invocations that `dispatch` computes from the trimmed fields. -/
theorem split_then_dispatch (alloc : Nat → Bool) (halloc : ∀ n, alloc n = true)
    (system : Spawner) (line : List Char) (hline : NUL ∉ line) (trace : List (List Char)) :
    ∃ r, parse_commands alloc (lineBuffer line) 0 = some r ∧
      r.ret = ((fields line).length : Int) ∧
      commandStrings r.mem r.commands = fields line ∧
      trimmedCommands r.mem r.commands = (fields line).map trim ∧
      ((run_commands system r.commands { mem := r.mem, trace := trace }).1,
        (run_commands system r.commands { mem := r.mem, trace := trace }).2.trace)
        = dispatch system ((fields line).map trim) trace := by
  obtain ⟨r, hr, hret, _, hmap, _, hsep⟩ := parse_commands_spec alloc halloc line hline
  have ht : trimmedCommands r.mem r.commands = (fields line).map trim := by
    rw [← hmap]
    simp [trimmedCommands, List.map_map]
  refine ⟨r, hr, hret, hmap, ht, ?_⟩
  rw [← ht]
  exact run_commands_eq_dispatch system r.commands r.mem trace hsep

/-- Two spawning facilities that report launch failure on the same invocations
drive `run_commands` the same way. -/
theorem run_commands_congr (s1 s2 : Spawner)
    (hagree : ∀ h c, s1 h c = -1 ↔ s2 h c = -1) :
    ∀ (commands : List Nat) (w : World), run_commands s1 commands w = run_commands s2 commands w := by
  intro commands
  induction commands with
  | nil => intro w; rfl
  | cons p rest ih =>
    intro w
    simp only [run_commands]
    by_cases h1 : cstr (trim_command w.mem p).1 (trim_command w.mem p).2 = exitLiteral
    · simp only [h1, if_true]
    · simp only [h1, if_false]
      by_cases h2 : s1 w.trace (cstr (trim_command w.mem p).1 (trim_command w.mem p).2) = -1
      · have h3 := (hagree _ _).mp h2
        simp only [h2, h3, if_true]
      · have h3 : ¬ s2 w.trace (cstr (trim_command w.mem p).1 (trim_command w.mem p).2) = -1 :=
          fun h => h2 ((hagree _ _).mpr h)
        simp only [h2, h3, if_false]
        exact ih _

/-- A whitespace-only line is one field, and trims to the empty string. -/
theorem trim_whitespace (line : List Char) (hws : ∀ c ∈ line, isspace c = true) :
    NUL ∉ line ∧ trim line = [] := by
  have hnul : NUL ∉ line := fun h => absurd (hws NUL h) (by decide)
  refine ⟨hnul, ?_⟩
  rw [trim_eq_trimSpec line hnul]
  unfold trimSpec
  have : line.dropWhile isspace = [] := by
    rw [List.dropWhile_eq_nil_iff]
    exact hws
  rw [this]
  rfl

/-! ## The claims -/

/-- C1: for every line without a terminator inside, and when no allocation
fails, `parse_commands` returns, and what it returns are exactly the non-empty
fields of the line delimited by `;`, untrimmed and in left-to-right order: the
returned count is the number of non-empty fields, and reading the i-th pointer
of the array gives the i-th non-empty field. -/
theorem parse_commands_returns_fields (alloc : Nat → Bool) (halloc : ∀ n, alloc n = true)
    (line : List Char) (hline : NUL ∉ line) :
    ∃ r, parse_commands alloc (lineBuffer line) 0 = some r ∧
      r.ret = ((fields line).length : Int) ∧
      r.commands.length = (fields line).length ∧
      commandStrings r.mem r.commands = fields line := by
  obtain ⟨r, hr, hret, hlen, hmap, _, _⟩ := parse_commands_spec alloc halloc line hline
  exact ⟨r, hr, hret, hlen, hmap⟩

theorem parse_commands_returns_fields_witness :
    NUL ∉ ";; ls -l;;exit ;".toList ∧
    ∃ r, parse_commands (fun _ => true) (lineBuffer ";; ls -l;;exit ;".toList) 0 = some r ∧
      r.ret = ((fields ";; ls -l;;exit ;".toList).length : Int) ∧
      r.commands.length = (fields ";; ls -l;;exit ;".toList).length ∧
      commandStrings r.mem r.commands = fields ";; ls -l;;exit ;".toList :=
  ⟨by decide,
    parse_commands_returns_fields (fun _ => true) (fun _ => rfl) ";; ls -l;;exit ;".toList
      (by decide)⟩

/-- C2: trimming is idempotent.  Applying the trim step of `run_commands` to an
already trimmed Command yields the identical Command: `trim (trim c) = trim c`
for every string `c`, and, in place, trimming again the Command that the trim
step left in the buffer leaves the same string. -/
theorem trim_idempotent (c : List Char) (mem : List Char) (p : Nat) :
    trim (trim c) = trim c ∧
    cstr (trim_command (trim_command mem p).1 (trim_command mem p).2).1
        (trim_command (trim_command mem p).1 (trim_command mem p).2).2
      = cstr (trim_command mem p).1 (trim_command mem p).2 := by
  refine ⟨trim_trim c, ?_⟩
  rw [cstr_trim_command_eq_trim, cstr_trim_command_eq_trim, trim_trim]

/-- C3: for every Command List of views that do not overlap and every behaviour
of `system()`: if index `i` is the first Command whose trimmed form is `exit`
and every Command before it is spawned without launch failure, `run_commands`
returns 1 and `system()` was invoked for exactly the trimmed Commands
`0..i-1`, in order; neither Command `i` nor a later one is invoked. -/
theorem run_commands_exit (system : Spawner) (mem : List Char) (commands : List Nat)
    (trace : List (List Char)) (i : Nat) (hsep : Separate mem commands)
    (hexit : (trimmedCommands mem commands)[i]? = some exitLiteral)
    (hbefore : ∀ j t, j < i → (trimmedCommands mem commands)[j]? = some t →
      t ≠ exitLiteral ∧ system (trace ++ (trimmedCommands mem commands).take j) t ≠ -1) :
    (run_commands system commands { mem := mem, trace := trace }).1 = 1 ∧
    (run_commands system commands { mem := mem, trace := trace }).2.trace
      = trace ++ (trimmedCommands mem commands).take i := by
  have h := run_commands_eq_dispatch system commands mem trace hsep
  rw [dispatch_exit system _ i trace hexit hbefore] at h
  exact ⟨congrArg Prod.fst h, congrArg Prod.snd h⟩

/-- C4: for every Command List of views that do not overlap: if index `i` is
the first Command for which `system()` returns -1, that Command and those
before it not being `exit` after trimming, `run_commands` returns -1 at once;
the invocations are the trimmed Commands `0..i`, so the failing one is the last
and no Command after it is invoked. -/
theorem run_commands_failure (system : Spawner) (mem : List Char) (commands : List Nat)
    (trace : List (List Char)) (i : Nat) (t : List Char) (hsep : Separate mem commands)
    (hi : (trimmedCommands mem commands)[i]? = some t) (hne : t ≠ exitLiteral)
    (hfail : system (trace ++ (trimmedCommands mem commands).take i) t = -1)
    (hbefore : ∀ j t, j < i → (trimmedCommands mem commands)[j]? = some t →
      t ≠ exitLiteral ∧ system (trace ++ (trimmedCommands mem commands).take j) t ≠ -1) :
    (run_commands system commands { mem := mem, trace := trace }).1 = -1 ∧
    (run_commands system commands { mem := mem, trace := trace }).2.trace
      = trace ++ (trimmedCommands mem commands).take (i + 1) := by
  have h := run_commands_eq_dispatch system commands mem trace hsep
  rw [dispatch_failure system _ i trace t hi hne hfail hbefore] at h
  exact ⟨congrArg Prod.fst h, congrArg Prod.snd h⟩

/-- C5: for every Command List of `k` views that do not overlap, in which no
Command trims to `exit` and every spawn succeeds, `run_commands` returns 0 and
`system()` is invoked exactly `k` times: once per Command, in list order, each
time with the trimmed string of that Command. -/
theorem run_commands_continue (system : Spawner) (mem : List Char) (commands : List Nat)
    (trace : List (List Char)) (hsep : Separate mem commands)
    (hall : ∀ j t, (trimmedCommands mem commands)[j]? = some t →
      t ≠ exitLiteral ∧ system (trace ++ (trimmedCommands mem commands).take j) t ≠ -1) :
    (run_commands system commands { mem := mem, trace := trace }).1 = 0 ∧
    (run_commands system commands { mem := mem, trace := trace }).2.trace
      = trace ++ trimmedCommands mem commands ∧
    (run_commands system commands { mem := mem, trace := trace }).2.trace.length
      = trace.length + commands.length := by
  have h := run_commands_eq_dispatch system commands mem trace hsep
  rw [dispatch_all system _ trace hall] at h
  have h2 := congrArg Prod.snd h
  simp only at h2
  refine ⟨congrArg Prod.fst h, h2, ?_⟩
  rw [h2]
  simp [trimmedCommands]

/-- C6: for every Command List of `k` views that do not overlap and every
behaviour of `system()`, the strings `run_commands` hands to `system()` are a
prefix of the list of trimmed Commands: each Command is invoked at most once,
in list order, and there are at most `k` invocations.  There are exactly `k`
when no exit or failure occurs (no trimmed Command is `exit` and no spawn
returns -1), and then the value returned is 0; there are exactly `k` whenever
the value returned is 0; and when there are fewer than `k`, the next Command
trims to `exit` or the last spawn returned -1. -/
theorem run_commands_prefix (system : Spawner) (mem : List Char) (commands : List Nat)
    (trace : List (List Char)) (hsep : Separate mem commands) :
    ∃ n, n ≤ commands.length ∧
      (run_commands system commands { mem := mem, trace := trace }).2.trace
        = trace ++ (trimmedCommands mem commands).take n ∧
      ((∀ j t, (trimmedCommands mem commands)[j]? = some t →
          t ≠ exitLiteral ∧ system (trace ++ (trimmedCommands mem commands).take j) t ≠ -1) →
        n = commands.length ∧
        (run_commands system commands { mem := mem, trace := trace }).1 = 0) ∧
      ((run_commands system commands { mem := mem, trace := trace }).1 = 0 →
        n = commands.length) ∧
      (n < commands.length →
        (trimmedCommands mem commands)[n]? = some exitLiteral ∨
        ∃ m t, n = m + 1 ∧ (trimmedCommands mem commands)[m]? = some t ∧
          system (trace ++ (trimmedCommands mem commands).take m) t = -1) := by
  have h := run_commands_eq_dispatch system commands mem trace hsep
  obtain ⟨n, hn, htr, hret, hwhy⟩ :=
    dispatch_stop_reason system (trimmedCommands mem commands) trace
  have h1 := congrArg Prod.fst h
  have h2 := congrArg Prod.snd h
  simp only at h1 h2
  have hlen : (trimmedCommands mem commands).length = commands.length := by
    simp [trimmedCommands]
  refine ⟨n, hlen ▸ hn, ?_, ?_, ?_, ?_⟩
  · rw [h2, htr]
  · intro hall
    have hd := dispatch_all system (trimmedCommands mem commands) trace hall
    have h0 : (run_commands system commands { mem := mem, trace := trace }).1 = 0 := by
      rw [h1, hd]
    refine ⟨?_, h0⟩
    rw [← hlen]
    exact hret (by rw [← h1]; exact h0)
  · intro h0
    rw [h1] at h0
    rw [← hlen]
    exact hret h0
  · intro hlt
    exact hwhy (by rw [hlen]; exact hlt)

theorem run_commands_exit_witness :
    Separate exampleMem exampleCommands ∧
    (trimmedCommands exampleMem exampleCommands)[1]? = some exitLiteral ∧
    (run_commands alwaysZero exampleCommands { mem := exampleMem, trace := [] }).1 = 1 ∧
    (run_commands alwaysZero exampleCommands { mem := exampleMem, trace := [] }).2.trace
      = [] ++ (trimmedCommands exampleMem exampleCommands).take 1 :=
  ⟨by decide, by decide,
    run_commands_exit alwaysZero exampleMem exampleCommands [] 1 (by decide) (by decide)
      (fun j t hj ht => by
        have hj0 : j = 0 := by omega
        subst hj0
        have hT : (trimmedCommands exampleMem exampleCommands)[0]? = some "ls".toList := by
          decide
        rw [hT] at ht
        have ht2 : t = "ls".toList := (Option.some.inj ht).symm
        subst ht2
        exact ⟨by decide, by decide⟩)⟩

theorem run_commands_failure_witness :
    Separate exampleMem2 exampleCommands2 ∧
    (trimmedCommands exampleMem2 exampleCommands2)[1]? = some "b".toList ∧
    (run_commands failsOnB exampleCommands2 { mem := exampleMem2, trace := [] }).1 = -1 ∧
    (run_commands failsOnB exampleCommands2 { mem := exampleMem2, trace := [] }).2.trace
      = [] ++ (trimmedCommands exampleMem2 exampleCommands2).take (1 + 1) :=
  ⟨by decide, by decide,
    run_commands_failure failsOnB exampleMem2 exampleCommands2 [] 1 "b".toList (by decide)
      (by decide) (by decide) (by decide)
      (fun j t hj ht => by
        have hj0 : j = 0 := by omega
        subst hj0
        have hT : (trimmedCommands exampleMem2 exampleCommands2)[0]? = some "a".toList := by
          decide
        rw [hT] at ht
        have ht2 : t = "a".toList := (Option.some.inj ht).symm
        subst ht2
        exact ⟨by decide, by decide⟩)⟩

theorem run_commands_continue_witness :
    Separate exampleMem2 exampleCommands2 ∧
    (run_commands alwaysZero exampleCommands2 { mem := exampleMem2, trace := [] }).1 = 0 ∧
    (run_commands alwaysZero exampleCommands2 { mem := exampleMem2, trace := [] }).2.trace
      = [] ++ trimmedCommands exampleMem2 exampleCommands2 ∧
    (run_commands alwaysZero exampleCommands2 { mem := exampleMem2, trace := [] }).2.trace.length
      = ([] : List (List Char)).length + exampleCommands2.length :=
  ⟨by decide,
    run_commands_continue alwaysZero exampleMem2 exampleCommands2 [] (by decide)
      (fun j t ht => by
        have hmem : t ∈ trimmedCommands exampleMem2 exampleCommands2 :=
          List.getElem?_mem ht
        have hT : trimmedCommands exampleMem2 exampleCommands2
            = ["a".toList, "b".toList, "c".toList] := by decide
        rw [hT] at hmem
        simp only [List.mem_cons, List.mem_singleton, List.not_mem_nil, or_false] at hmem
        rcases hmem with h | h | h <;> subst h <;>
          exact ⟨by decide, by simp [alwaysZero]⟩)⟩

theorem run_commands_prefix_witness :
    Separate exampleMem2 exampleCommands2 ∧
    (run_commands alwaysZero exampleCommands2 { mem := exampleMem2, trace := [] }).2.trace
      = [] ++ (trimmedCommands exampleMem2 exampleCommands2).take exampleCommands2.length ∧
    (run_commands alwaysZero exampleCommands2 { mem := exampleMem2, trace := [] }).1 = 0 := by
  obtain ⟨n, _, htr, hall, _, _⟩ :=
    run_commands_prefix alwaysZero exampleMem2 exampleCommands2 [] (by decide)
  have hk := hall (fun j t ht => by
    have hmem : t ∈ trimmedCommands exampleMem2 exampleCommands2 := List.getElem?_mem ht
    have hT : trimmedCommands exampleMem2 exampleCommands2
        = ["a".toList, "b".toList, "c".toList] := by decide
    rw [hT] at hmem
    simp only [List.mem_cons, List.mem_singleton, List.not_mem_nil, or_false] at hmem
    rcases hmem with h | h | h <;> subst h <;>
      exact ⟨by decide, by simp [alwaysZero]⟩)
  rw [hk.1] at htr
  exact ⟨by decide, htr, hk.2⟩

/-- C7: a non-zero exit status of a spawned program is treated like success.
For every Command List and any two behaviours of `system()` that return -1 on
the same invocations (and differ freely otherwise), `run_commands` returns the
same value and leaves the same world, invocations included.  And for the line
`false; echo hi`, with any behaviour of `system()` under which `false` and
`echo hi` are launched (status other than -1, zero or not), both Commands run
and `run_commands` returns 0. -/
theorem nonzero_status_is_success (s1 s2 : Spawner) (commands : List Nat) (w : World)
    (hagree : ∀ h c, s1 h c = -1 ↔ s2 h c = -1) :
    run_commands s1 commands w = run_commands s2 commands w ∧
    ∀ (alloc : Nat → Bool) (system : Spawner) (trace : List (List Char)),
      (∀ n, alloc n = true) →
      system trace "false".toList ≠ -1 →
      system (trace ++ ["false".toList]) "echo hi".toList ≠ -1 →
      ∃ r, parse_commands alloc (lineBuffer "false; echo hi".toList) 0 = some r ∧
        r.ret = 2 ∧
        (run_commands system r.commands { mem := r.mem, trace := trace }).1 = 0 ∧
        (run_commands system r.commands { mem := r.mem, trace := trace }).2.trace
          = trace ++ ["false".toList, "echo hi".toList] := by
  refine ⟨run_commands_congr s1 s2 hagree commands w, ?_⟩
  intro alloc system trace halloc hfalse hecho
  obtain ⟨r, hr, hret, _, _, hrun⟩ :=
    split_then_dispatch alloc halloc system "false; echo hi".toList (by decide) trace
  have hf : (fields "false; echo hi".toList).map trim
      = ["false".toList, "echo hi".toList] := by decide
  have hn : (fields "false; echo hi".toList).length = 2 := by decide
  have h1 : ¬ ("false".toList = exitLiteral) := by decide
  have h2 : ¬ ("echo hi".toList = exitLiteral) := by decide
  rw [hf] at hrun
  simp only [dispatch, if_neg h1, if_neg h2, if_neg hfalse, if_neg hecho] at hrun
  refine ⟨r, hr, by rw [hret, hn]; rfl, congrArg Prod.fst hrun, ?_⟩
  have := congrArg Prod.snd hrun
  simpa [List.append_assoc] using this

theorem nonzero_status_is_success_witness :
    falseIsNonZero [] "false".toList = 256 ∧
    run_commands falseIsNonZero exampleCommands2 { mem := exampleMem2, trace := [] }
      = run_commands alwaysZero exampleCommands2 { mem := exampleMem2, trace := [] } ∧
    ∃ r, parse_commands (fun _ => true) (lineBuffer "false; echo hi".toList) 0 = some r ∧
      r.ret = 2 ∧
      (run_commands falseIsNonZero r.commands { mem := r.mem, trace := [] }).1 = 0 ∧
      (run_commands falseIsNonZero r.commands { mem := r.mem, trace := [] }).2.trace
        = [] ++ ["false".toList, "echo hi".toList] :=
  ⟨by decide,
    (nonzero_status_is_success falseIsNonZero alwaysZero exampleCommands2
      { mem := exampleMem2, trace := [] }
      (fun _ c => by
        unfold falseIsNonZero alwaysZero
        split <;> decide)).1,
    (nonzero_status_is_success falseIsNonZero alwaysZero exampleCommands2
      { mem := exampleMem2, trace := [] }
      (fun _ c => by
        unfold falseIsNonZero alwaysZero
        split <;> decide)).2 (fun _ => true) falseIsNonZero [] (fun _ => rfl)
      (by decide) (by decide)⟩

/-- C8: the sentinel is matched exactly and case-sensitively after trimming.
For every Command List of one Command, `run_commands` returns 1 if and only if
the trimmed Command is exactly the four characters `exit`; otherwise the
trimmed Command is handed to `system()`.  For the Commands `exit now`, `EXIT`,
`Exit` and `exit0` it does not return 1 and hands the Command to `system()`. -/
theorem exit_matched_exactly (system : Spawner) (mem : List Char) (p : Nat)
    (trace : List (List Char)) :
    ((run_commands system [p] { mem := mem, trace := trace }).1 = 1
        ↔ trim (cstr mem p) = ['e', 'x', 'i', 't']) ∧
    (trim (cstr mem p) ≠ ['e', 'x', 'i', 't'] →
      (run_commands system [p] { mem := mem, trace := trace }).2.trace
        = trace ++ [trim (cstr mem p)]) ∧
    (trim (cstr mem p) = ['e', 'x', 'i', 't'] →
      (run_commands system [p] { mem := mem, trace := trace }).2.trace = trace) ∧
    ∀ c ∈ ["exit now".toList, "EXIT".toList, "Exit".toList, "exit0".toList],
      (run_commands system [0] { mem := lineBuffer c, trace := trace }).1 ≠ 1 ∧
      (run_commands system [0] { mem := lineBuffer c, trace := trace }).2.trace
        = trace ++ [c] := by
  have hgen : ∀ (m : List Char) (q : Nat),
      ((run_commands system [q] { mem := m, trace := trace }).1 = 1
          ↔ trim (cstr m q) = exitLiteral) ∧
      (trim (cstr m q) ≠ exitLiteral →
        (run_commands system [q] { mem := m, trace := trace }).2.trace
          = trace ++ [trim (cstr m q)]) ∧
      (trim (cstr m q) = exitLiteral →
        (run_commands system [q] { mem := m, trace := trace }).2.trace = trace) := by
    intro m q
    have ht := cstr_trim_command_eq_trim m q
    simp only [run_commands, ht]
    by_cases h1 : trim (cstr m q) = exitLiteral
    · simp [h1]
    · by_cases h2 : system trace (trim (cstr m q)) = -1
      · simp [h1, h2]
      · simp [h1, h2]
  refine ⟨(hgen mem p).1, (hgen mem p).2.1, (hgen mem p).2.2, ?_⟩
  intro c hc
  have hcases : c = "exit now".toList ∨ c = "EXIT".toList ∨ c = "Exit".toList
      ∨ c = "exit0".toList := by simpa using hc
  have hfacts : cstr (lineBuffer c) 0 = c ∧ trim c = c ∧ c ≠ exitLiteral := by
    rcases hcases with h | h | h | h <;> subst h <;> decide
  obtain ⟨h1, h2, h3⟩ := hfacts
  have hne : trim (cstr (lineBuffer c) 0) ≠ exitLiteral := by rw [h1, h2]; exact h3
  refine ⟨fun h => hne ((hgen (lineBuffer c) 0).1.mp h), ?_⟩
  rw [(hgen (lineBuffer c) 0).2.1 hne, h1, h2]

theorem exit_matched_exactly_witness :
    (run_commands alwaysZero [0] { mem := lineBuffer "  exit  ".toList, trace := [] }).1 = 1 ∧
    (run_commands alwaysZero [0] { mem := lineBuffer "  exit  ".toList, trace := [] }).2.trace
      = [] ∧
    (run_commands alwaysZero [0] { mem := lineBuffer " exit now ".toList, trace := [] }).2.trace
      = [] ++ [trim (cstr (lineBuffer " exit now ".toList) 0)] :=
  ⟨(exit_matched_exactly alwaysZero (lineBuffer "  exit  ".toList) 0 []).1.mpr (by decide),
    (exit_matched_exactly alwaysZero (lineBuffer "  exit  ".toList) 0 []).2.2.1 (by decide),
    (exit_matched_exactly alwaysZero (lineBuffer " exit now ".toList) 0 []).2.1 (by decide)⟩

/-- C9: the line `ls; exit; rm -rf /`.  `parse_commands` yields exactly the
three Commands `ls`, ` exit`, ` rm -rf /`, whose trimmed forms are `ls`, `exit`,
`rm -rf /`; when the spawn of `ls` succeeds, `run_commands` on them returns 1,
the only invocation of `system()` is `ls`, and `rm -rf /` is never invoked. -/
theorem scenario_ls_exit_rm (alloc : Nat → Bool) (halloc : ∀ n, alloc n = true)
    (system : Spawner) (hls : system [] "ls".toList ≠ -1) :
    ∃ r, parse_commands alloc (lineBuffer "ls; exit; rm -rf /".toList) 0 = some r ∧
      r.ret = 3 ∧
      commandStrings r.mem r.commands = ["ls".toList, " exit".toList, " rm -rf /".toList] ∧
      trimmedCommands r.mem r.commands = ["ls".toList, "exit".toList, "rm -rf /".toList] ∧
      (run_commands system r.commands { mem := r.mem, trace := [] }).1 = 1 ∧
      (run_commands system r.commands { mem := r.mem, trace := [] }).2.trace
        = ["ls".toList] ∧
      "rm -rf /".toList
        ∉ (run_commands system r.commands { mem := r.mem, trace := [] }).2.trace := by
  obtain ⟨r, hr, hret, hstr, htrim, hrun⟩ :=
    split_then_dispatch alloc halloc system "ls; exit; rm -rf /".toList (by decide) []
  have hf : fields "ls; exit; rm -rf /".toList
      = ["ls".toList, " exit".toList, " rm -rf /".toList] := by decide
  have hft : (fields "ls; exit; rm -rf /".toList).map trim
      = ["ls".toList, exitLiteral, "rm -rf /".toList] := by decide
  have hn : (fields "ls; exit; rm -rf /".toList).length = 3 := by decide
  have h1 : ¬ ("ls".toList = exitLiteral) := by decide
  rw [hft] at hrun
  simp only [dispatch, if_neg h1, if_neg hls, if_true] at hrun
  have htr : (run_commands system r.commands { mem := r.mem, trace := [] }).2.trace
      = ["ls".toList] := congrArg Prod.snd hrun
  refine ⟨r, hr, by rw [hret, hn]; rfl, by rw [hstr, hf], by rw [htrim, hft]; rfl,
    congrArg Prod.fst hrun, htr, ?_⟩
  rw [htr]
  decide

theorem scenario_ls_exit_rm_witness :
    alwaysZero [] "ls".toList ≠ -1 ∧
    ∃ r, parse_commands (fun _ => true) (lineBuffer "ls; exit; rm -rf /".toList) 0 = some r ∧
      r.ret = 3 ∧
      commandStrings r.mem r.commands = ["ls".toList, " exit".toList, " rm -rf /".toList] ∧
      trimmedCommands r.mem r.commands = ["ls".toList, "exit".toList, "rm -rf /".toList] ∧
      (run_commands alwaysZero r.commands { mem := r.mem, trace := [] }).1 = 1 ∧
      (run_commands alwaysZero r.commands { mem := r.mem, trace := [] }).2.trace
        = ["ls".toList] ∧
      "rm -rf /".toList
        ∉ (run_commands alwaysZero r.commands { mem := r.mem, trace := [] }).2.trace :=
  ⟨by decide, scenario_ls_exit_rm (fun _ => true) (fun _ => rfl) alwaysZero (by decide)⟩

/-- C10: for every non-empty line made only of whitespace (so without `;`),
`parse_commands` yields exactly one Command, the whole line; trimming makes it
the empty string; `run_commands` does not skip it: the empty string is not
`exit`, `system()` is invoked exactly once, with the empty string, and the
value returned is 0 when that spawn succeeds (and -1 when it fails). -/
theorem whitespace_line_spawns_empty (alloc : Nat → Bool) (halloc : ∀ n, alloc n = true)
    (system : Spawner) (line : List Char) (trace : List (List Char))
    (hne : line ≠ []) (hws : ∀ c ∈ line, isspace c = true) :
    ∃ r, parse_commands alloc (lineBuffer line) 0 = some r ∧
      r.ret = 1 ∧
      commandStrings r.mem r.commands = [line] ∧
      trimmedCommands r.mem r.commands = [[]] ∧
      (run_commands system r.commands { mem := r.mem, trace := trace }).2.trace
        = trace ++ [[]] ∧
      (system trace [] ≠ -1 →
        (run_commands system r.commands { mem := r.mem, trace := trace }).1 = 0) ∧
      (system trace [] = -1 →
        (run_commands system r.commands { mem := r.mem, trace := trace }).1 = -1) := by
  obtain ⟨hnul, htrim0⟩ := trim_whitespace line hws
  obtain ⟨r, hr, hret, hstr, htrim, hrun⟩ :=
    split_then_dispatch alloc halloc system line hnul trace
  have hf : fields line = [line] := by
    cases line with
    | nil => exact absurd rfl hne
    | cons t ts =>
      apply fields_token_end
      intro c hc hsemi
      have := hws c hc
      rw [hsemi] at this
      exact absurd this (by decide)
  have h1 : ¬ (([] : List Char) = exitLiteral) := by decide
  rw [hf] at hret hstr htrim hrun
  simp only [List.map_cons, List.map_nil, htrim0] at htrim hrun
  simp only [dispatch, if_neg h1] at hrun
  refine ⟨r, hr, by simpa using hret, hstr, htrim, ?_, ?_, ?_⟩
  · have := congrArg Prod.snd hrun
    by_cases h2 : system trace [] = -1
    · simpa [h2] using this
    · simpa [h2] using this
  · intro h2
    have := congrArg Prod.fst hrun
    simpa [h2] using this
  · intro h2
    have := congrArg Prod.fst hrun
    simpa [h2] using this

theorem whitespace_line_spawns_empty_witness :
    "   ".toList ≠ [] ∧ (∀ c ∈ "   ".toList, isspace c = true) ∧
    ∃ r, parse_commands (fun _ => true) (lineBuffer "   ".toList) 0 = some r ∧
      r.ret = 1 ∧
      commandStrings r.mem r.commands = ["   ".toList] ∧
      trimmedCommands r.mem r.commands = [[]] ∧
      (run_commands alwaysZero r.commands { mem := r.mem, trace := [] }).2.trace
        = [] ++ [[]] ∧
      (alwaysZero [] [] ≠ -1 →
        (run_commands alwaysZero r.commands { mem := r.mem, trace := [] }).1 = 0) ∧
      (alwaysZero [] [] = -1 →
        (run_commands alwaysZero r.commands { mem := r.mem, trace := [] }).1 = -1) :=
  ⟨by decide, by decide,
    whitespace_line_spawns_empty (fun _ => true) (fun _ => rfl) alwaysZero "   ".toList []
      (by decide) (by decide)⟩

/-! ## The capacity of the array of commands -/

/-- Along the loop the capacity is 4 times a power of two, the count never
exceeds it, and it is 4 or less than twice the count; so it is at the end. -/
theorem parse_loop_capacity (alloc : Nat → Bool) :
    ∀ (fuel : Nat) (command : Option Nat) (st : TokState) (commands : List Nat)
      (count cap : Nat) (r : Parsed),
      parse_loop alloc fuel command st commands count cap = some r → r.ret ≠ -1 →
      (∃ j, cap = 4 * 2 ^ j) → count ≤ cap → (cap = 4 ∨ cap < 2 * count) →
      ∃ n : Nat, r.ret = (n : Int) ∧ count ≤ n ∧ (∃ j, r.capacity = 4 * 2 ^ j) ∧
        n ≤ r.capacity ∧ (r.capacity = 4 ∨ r.capacity < 2 * n) := by
  intro fuel
  induction fuel with
  | zero => intro command st commands count cap r h; simp [parse_loop] at h
  | succ fuel ih =>
    intro command st commands count cap r h hret hpow hle hmin
    cases command with
    | none =>
      simp only [parse_loop, Option.some.injEq] at h
      subst h
      exact ⟨count, rfl, le_refl _, hpow, hle, hmin⟩
    | some c =>
      simp only [parse_loop] at h
      by_cases hfull : count = cap
      · rw [if_pos hfull] at h
        by_cases ha : alloc (cap * 2) = true
        · rw [if_pos ha] at h
          obtain ⟨j, hj⟩ := hpow
          obtain ⟨n, hn, hcn, hrest⟩ := ih _ _ _ _ _ r h hret
            ⟨j + 1, by rw [hj, pow_succ]; ring⟩ (by omega) (Or.inr (by omega))
          exact ⟨n, hn, by omega, hrest⟩
        · rw [if_neg ha] at h
          simp only [Option.some.injEq] at h
          subst h
          exact absurd rfl hret
      · rw [if_neg hfull] at h
        obtain ⟨n, hn, hcn, hrest⟩ := ih _ _ _ _ _ r h hret hpow (by omega)
          (by rcases hmin with h4 | h2
              · exact Or.inl h4
              · exact Or.inr (by omega))
        exact ⟨n, hn, by omega, hrest⟩

/-- Every store is in bounds when the count does not exceed a non-zero
capacity at the start. -/
theorem parse_stores_bounds (alloc : Nat → Bool) :
    ∀ (fuel : Nat) (command : Option Nat) (st : TokState) (count cap : Nat),
      count ≤ cap → 0 < cap →
      ∀ p ∈ parse_stores alloc fuel command st count cap, p.1 < p.2 := by
  intro fuel
  induction fuel with
  | zero => intro command st count cap _ _ p hp; simp [parse_stores] at hp
  | succ fuel ih =>
    intro command st count cap hle hpos p hp
    cases command with
    | none => simp [parse_stores] at hp
    | some c =>
      simp only [parse_stores] at hp
      by_cases hfull : count = cap
      · rw [if_pos hfull] at hp
        by_cases ha : alloc (cap * 2) = true
        · rw [if_pos ha] at hp
          rcases List.mem_cons.mp hp with h | h
          · rw [h]; simp only; omega
          · exact ih _ _ _ _ (by omega) (by omega) p h
        · rw [if_neg ha] at hp
          simp at hp
      · rw [if_neg hfull] at hp
        rcases List.mem_cons.mp hp with h | h
        · rw [h]; simp only; omega
        · exact ih _ _ _ _ (by omega) hpos p h

/-- Consecutive stores: the capacity stays or doubles, and doubles only when
the array is full. -/
theorem parse_stores_chain (alloc : Nat → Bool) :
    ∀ (fuel : Nat) (command : Option Nat) (st : TokState) (count cap : Nat) (a : Nat × Nat),
      a.1 + 1 = count → a.2 = cap →
      List.Chain NextStore a (parse_stores alloc fuel command st count cap) := by
  intro fuel
  induction fuel with
  | zero => intro command st count cap a _ _; simp [parse_stores]
  | succ fuel ih =>
    intro command st count cap a h1 h2
    cases command with
    | none => simp [parse_stores]
    | some c =>
      simp only [parse_stores]
      by_cases hfull : count = cap
      · rw [if_pos hfull]
        by_cases ha : alloc (cap * 2) = true
        · rw [if_pos ha]
          refine List.Chain.cons ?_ (ih _ _ _ _ _ rfl rfl)
          exact ⟨h1.symm, Or.inr ⟨by simp only; omega, by simp only; omega⟩⟩
        · rw [if_neg ha]
          exact List.Chain.nil
      · rw [if_neg hfull]
        refine List.Chain.cons ?_ (ih _ _ _ _ _ rfl rfl)
        exact ⟨h1.symm, Or.inl h2.symm⟩

/-- The stores and the loop go together: when the loop returns a count, there
was one store for each index from the starting count up to it, and the
capacity returned is that of the last store. -/
theorem parse_stores_indices (alloc : Nat → Bool) :
    ∀ (fuel : Nat) (command : Option Nat) (st : TokState) (commands : List Nat)
      (count cap : Nat) (r : Parsed),
      parse_loop alloc fuel command st commands count cap = some r → r.ret ≠ -1 →
      ∃ n : Nat, r.ret = ((count + n : Nat) : Int) ∧
        (parse_stores alloc fuel command st count cap).map Prod.fst = List.range' count n ∧
        (((parse_stores alloc fuel command st count cap).getLast?).map Prod.snd).getD cap
          = r.capacity := by
  intro fuel
  induction fuel with
  | zero => intro command st commands count cap r h; simp [parse_loop] at h
  | succ fuel ih =>
    intro command st commands count cap r h hret
    cases command with
    | none =>
      simp only [parse_loop, Option.some.injEq] at h
      subst h
      exact ⟨0, by simp, by simp [parse_stores], by simp [parse_stores]⟩
    | some c =>
      simp only [parse_loop] at h
      simp only [parse_stores]
      by_cases hfull : count = cap
      · rw [if_pos hfull] at h
        rw [if_pos hfull]
        by_cases ha : alloc (cap * 2) = true
        · rw [if_pos ha] at h
          rw [if_pos ha]
          obtain ⟨n, hn, hidx, hlast⟩ := ih _ _ _ _ _ r h hret
          refine ⟨n + 1, by rw [hn]; congr 1; omega, ?_, ?_⟩
          · rw [List.map_cons, hidx, List.range'_succ]
          · rw [← hlast, List.getLast?_cons]
            cases hl : (parse_stores alloc fuel (strtok none [';'] st).1
                (strtok none [';'] st).2 (count + 1) (cap * 2)).getLast? <;> simp
        · rw [if_neg ha] at h
          simp only [Option.some.injEq] at h
          subst h
          exact absurd rfl hret
      · rw [if_neg hfull] at h
        rw [if_neg hfull]
        obtain ⟨n, hn, hidx, hlast⟩ := ih _ _ _ _ _ r h hret
        refine ⟨n + 1, by rw [hn]; congr 1; omega, ?_, ?_⟩
        · rw [List.map_cons, hidx, List.range'_succ]
        · rw [← hlast, List.getLast?_cons]
          cases hl : (parse_stores alloc fuel (strtok none [';'] st).1
              (strtok none [';'] st).2 (count + 1) cap).getLast? <;> simp

theorem parse_stores_initial (alloc : Nat → Bool) (fuel : Nat) (command : Option Nat)
    (st : TokState) :
    List.Chain' NextStore (parse_stores alloc fuel command st 0 4) ∧
    ∀ p, (parse_stores alloc fuel command st 0 4).head? = some p → p = (0, 4) := by
  cases fuel with
  | zero => simp [parse_stores]
  | succ fuel =>
    cases command with
    | none => simp [parse_stores]
    | some c =>
      have h04 : ¬ ((0 : Nat) = 4) := by decide
      simp only [parse_stores, if_neg h04]
      refine ⟨?_, ?_⟩
      · show List.Chain NextStore (0, 4) _
        exact parse_stores_chain alloc fuel (strtok none [';'] st).1
          (strtok none [';'] st).2 (0 + 1) 4 (0, 4) rfl rfl
      · intro p hp
        simpa using hp.symm

theorem capacity_least (cap n : Nat) (hpow : ∃ j, cap = 4 * 2 ^ j)
    (hmin : cap = 4 ∨ cap < 2 * n) : ∀ k, n ≤ 4 * 2 ^ k → cap ≤ 4 * 2 ^ k := by
  intro k hk
  rcases hmin with h4 | h2
  · rw [h4]
    have : 1 ≤ 2 ^ k := Nat.one_le_two_pow
    omega
  · obtain ⟨j, hj⟩ := hpow
    have hlt : 2 ^ j < 2 ^ (k + 1) := by
      rw [pow_succ]
      omega
    have hjk : j < k + 1 := (Nat.pow_lt_pow_iff_right (by decide)).mp hlt
    have hle : 2 ^ j ≤ 2 ^ k := Nat.pow_le_pow_right (by decide) (by omega)
    omega

/-- C18: the capacity invariant of `parse_commands`, no allocation failing.
On a line with `N` tokens there is one store per token, at the write indices
`0..N-1`; every store is in bounds (the write index is below the capacity at
that time); the capacity is 4 at the first store and from one store to the
next it stays or doubles, and doubles only when the array is full; the final
capacity is that of the last store (4 when there is none), and it is the least
value `4 * 2 ^ j` that is at least `N`: 4 for `N ≤ 4`, 8 for `5 ≤ N ≤ 8`. -/
theorem capacity_invariant (alloc : Nat → Bool) (halloc : ∀ n, alloc n = true)
    (line : List Char) (hline : NUL ∉ line) :
    ∃ r, parse_commands alloc (lineBuffer line) 0 = some r ∧
      r.ret = ((fields line).length : Int) ∧
      (parse_commands_stores alloc (lineBuffer line) 0).map Prod.fst
        = List.range (fields line).length ∧
      (∀ p ∈ parse_commands_stores alloc (lineBuffer line) 0, p.1 < p.2) ∧
      (∀ p, (parse_commands_stores alloc (lineBuffer line) 0).head? = some p → p.2 = 4) ∧
      List.Chain' NextStore (parse_commands_stores alloc (lineBuffer line) 0) ∧
      (((parse_commands_stores alloc (lineBuffer line) 0).getLast?).map Prod.snd).getD 4
        = r.capacity ∧
      (∃ j, r.capacity = 4 * 2 ^ j) ∧
      (fields line).length ≤ r.capacity ∧
      (∀ k, (fields line).length ≤ 4 * 2 ^ k → r.capacity ≤ 4 * 2 ^ k) ∧
      ((fields line).length ≤ 4 → r.capacity = 4) ∧
      (5 ≤ (fields line).length → (fields line).length ≤ 8 → r.capacity = 8) := by
  obtain ⟨r, hr, hret, _, _, _, _⟩ := parse_commands_spec alloc halloc line hline
  have hloop : parse_loop alloc ((lineBuffer line).length + 1)
      (strtok (some 0) [';'] { mem := lineBuffer line, save := 0 }).1
      (strtok (some 0) [';'] { mem := lineBuffer line, save := 0 }).2 [] 0 4 = some r := by
    have := hr
    simp only [parse_commands, halloc, if_true] at this
    exact this
  have hst : parse_commands_stores alloc (lineBuffer line) 0
      = parse_stores alloc ((lineBuffer line).length + 1)
          (strtok (some 0) [';'] { mem := lineBuffer line, save := 0 }).1
          (strtok (some 0) [';'] { mem := lineBuffer line, save := 0 }).2 0 4 := by
    simp only [parse_commands_stores, halloc, if_true]
    rfl
  have hne : r.ret ≠ -1 := by rw [hret]; omega
  obtain ⟨n, hn, _, hpow, hle, hmin⟩ := parse_loop_capacity alloc _ _ _ _ _ _ r hloop hne
    ⟨0, by simp⟩ (by omega) (Or.inl rfl)
  have hnN : n = (fields line).length := by
    rw [hret] at hn
    exact_mod_cast hn.symm
  subst hnN
  obtain ⟨m, hm, hidx, hlast⟩ := parse_stores_indices alloc _ _ _ _ _ _ r hloop hne
  have hmN : m = (fields line).length := by
    rw [hret] at hm
    have : ((fields line).length : Int) = ((0 + m : Nat) : Int) := hm
    have h2 : (fields line).length = 0 + m := by exact_mod_cast this
    omega
  subst hmN
  have hinit := parse_stores_initial alloc ((lineBuffer line).length + 1)
    (strtok (some 0) [';'] { mem := lineBuffer line, save := 0 }).1
    (strtok (some 0) [';'] { mem := lineBuffer line, save := 0 }).2
  have hleast := capacity_least r.capacity (fields line).length hpow hmin
  obtain ⟨j, hj⟩ := hpow
  have h4 : 4 ≤ r.capacity := by
    have : 1 ≤ 2 ^ j := Nat.one_le_two_pow
    omega
  refine ⟨r, hr, hret, ?_, ?_, ?_, ?_, ?_, ⟨j, hj⟩, hle, hleast, ?_, ?_⟩
  · rw [hst, hidx, List.range_eq_range']
  · rw [hst]
    exact parse_stores_bounds alloc _ _ _ 0 4 (by omega) (by omega)
  · rw [hst]
    intro p hp
    rw [hinit.2 p hp]
  · rw [hst]
    exact hinit.1
  · rw [hst]
    exact hlast
  · intro hN
    have := hleast 0 (by simpa using hN)
    simp at this
    omega
  · intro h5 h8
    have h := hleast 1 (by simpa using h8)
    simp only [pow_one] at h
    cases j with
    | zero => simp at hj; omega
    | succ j =>
      have : 1 ≤ 2 ^ j := Nat.one_le_two_pow
      rw [pow_succ] at hj
      omega

theorem capacity_invariant_witness :
    NUL ∉ "a;b;c;d;e".toList ∧
    ∃ r, parse_commands (fun _ => true) (lineBuffer "a;b;c;d;e".toList) 0 = some r ∧
      r.ret = ((fields "a;b;c;d;e".toList).length : Int) ∧
      (parse_commands_stores (fun _ => true) (lineBuffer "a;b;c;d;e".toList) 0).map Prod.fst
        = List.range (fields "a;b;c;d;e".toList).length ∧
      (∀ p ∈ parse_commands_stores (fun _ => true) (lineBuffer "a;b;c;d;e".toList) 0,
        p.1 < p.2) ∧
      (∀ p, (parse_commands_stores (fun _ => true)
        (lineBuffer "a;b;c;d;e".toList) 0).head? = some p → p.2 = 4) ∧
      List.Chain' NextStore
        (parse_commands_stores (fun _ => true) (lineBuffer "a;b;c;d;e".toList) 0) ∧
      (((parse_commands_stores (fun _ => true)
        (lineBuffer "a;b;c;d;e".toList) 0).getLast?).map Prod.snd).getD 4 = r.capacity ∧
      (∃ j, r.capacity = 4 * 2 ^ j) ∧
      (fields "a;b;c;d;e".toList).length ≤ r.capacity ∧
      (∀ k, (fields "a;b;c;d;e".toList).length ≤ 4 * 2 ^ k → r.capacity ≤ 4 * 2 ^ k) ∧
      ((fields "a;b;c;d;e".toList).length ≤ 4 → r.capacity = 4) ∧
      (5 ≤ (fields "a;b;c;d;e".toList).length → (fields "a;b;c;d;e".toList).length ≤ 8 →
        r.capacity = 8) :=
  ⟨by decide, capacity_invariant (fun _ => true) (fun _ => rfl) "a;b;c;d;e".toList (by decide)⟩

/-! ## More on the fields of a line -/

/-- Induction on a line along its tokens. -/
theorem line_induction (P : List Char → Prop)
    (h1 : ∀ sk, (∀ c ∈ sk, c = ';') → P sk)
    (h2 : ∀ sk t ts, (∀ c ∈ sk, c = ';') → (∀ c ∈ t :: ts, c ≠ ';') → P (sk ++ (t :: ts)))
    (h3 : ∀ sk t ts post, (∀ c ∈ sk, c = ';') → (∀ c ∈ t :: ts, c ≠ ';') → P post →
      P (sk ++ (t :: ts) ++ ';' :: post)) :
    ∀ l, P l := by
  have key : ∀ (n : Nat) (l : List Char), l.length ≤ n → P l := by
    intro n
    induction n with
    | zero =>
      intro l hl
      have hnil : l = [] := List.eq_nil_of_length_eq_zero (by omega)
      rw [hnil]
      exact h1 [] (by simp)
    | succ n ih =>
      intro l hl
      obtain ⟨sk, hsk, hshape⟩ := line_shape l
      rcases hshape with hr | ⟨t, ts, htok, hr | ⟨post, hr⟩⟩
      · rw [hr]; exact h1 sk hsk
      · rw [hr]; exact h2 sk t ts hsk htok
      · rw [hr]
        refine h3 sk t ts post hsk htok (ih post ?_)
        rw [hr] at hl
        simp only [List.length_append, List.length_cons] at hl
        omega
  exact fun l => key l.length l (le_refl _)

theorem fields_only_semi (sk : List Char) (hsk : ∀ c ∈ sk, c = ';') : fields sk = [] := by
  have h := fields_skip sk [] hsk
  rw [List.append_nil] at h
  rw [h, fields_nil]

theorem fields_last (sk : List Char) (t : Char) (ts : List Char) (hsk : ∀ c ∈ sk, c = ';')
    (htok : ∀ c ∈ t :: ts, c ≠ ';') : fields (sk ++ (t :: ts)) = [t :: ts] := by
  rw [fields_skip sk _ hsk, fields_token_end t ts htok]

theorem fields_mid (sk : List Char) (t : Char) (ts post : List Char)
    (hsk : ∀ c ∈ sk, c = ';') (htok : ∀ c ∈ t :: ts, c ≠ ';') :
    fields (sk ++ (t :: ts) ++ ';' :: post) = (t :: ts) :: fields post := by
  rw [List.append_assoc, fields_skip sk _ hsk, fields_token_semi t ts post htok]

/-- No field is empty and no field contains `;`. -/
theorem fields_mem (l : List Char) : ∀ f ∈ fields l, f ≠ [] ∧ ';' ∉ f := by
  refine line_induction (fun l => ∀ f ∈ fields l, f ≠ [] ∧ ';' ∉ f) ?_ ?_ ?_ l
  · intro sk hsk f hf
    rw [fields_only_semi sk hsk] at hf
    simp at hf
  · intro sk t ts hsk htok f hf
    rw [fields_last sk t ts hsk htok] at hf
    simp only [List.mem_singleton] at hf
    rw [hf]
    exact ⟨by simp, fun h => htok ';' h rfl⟩
  · intro sk t ts post hsk htok ih f hf
    rw [fields_mid sk t ts post hsk htok] at hf
    rcases List.mem_cons.mp hf with h | h
    · rw [h]
      exact ⟨by simp, fun h => htok ';' h rfl⟩
    · exact ih f h

theorem filter_only_semi (sk : List Char) (hsk : ∀ c ∈ sk, c = ';') :
    sk.filter (fun c => c != ';') = [] := by
  rw [List.filter_eq_nil_iff]
  intro c hc
  simp [hsk c hc]

theorem filter_token (tok : List Char) (htok : ∀ c ∈ tok, c ≠ ';') :
    tok.filter (fun c => c != ';') = tok := by
  rw [List.filter_eq_self]
  intro c hc
  simpa using htok c hc

/-- The fields put end to end are the line without its `;`. -/
theorem fields_flatten (l : List Char) :
    (fields l).flatten = l.filter (fun c => c != ';') := by
  refine line_induction (fun l => (fields l).flatten = l.filter (fun c => c != ';')) ?_ ?_ ?_ l
  · intro sk hsk
    rw [fields_only_semi sk hsk, filter_only_semi sk hsk]
    rfl
  · intro sk t ts hsk htok
    rw [fields_last sk t ts hsk htok, List.filter_append, filter_only_semi sk hsk,
      filter_token _ htok]
    simp
  · intro sk t ts post hsk htok ih
    rw [fields_mid sk t ts post hsk htok, List.filter_append, List.filter_append,
      filter_only_semi sk hsk, filter_token _ htok, List.flatten_cons, ih]
    simp

/-- The fields of `u;l` are those of `u` followed by those of `l`. -/
theorem fields_append_semi (u : List Char) :
    ∀ l, fields (u ++ ';' :: l) = fields u ++ fields l := by
  refine line_induction (fun u => ∀ l, fields (u ++ ';' :: l) = fields u ++ fields l)
    ?_ ?_ ?_ u
  · intro sk hsk l
    rw [fields_skip sk _ hsk, fields_semi_cons, fields_only_semi sk hsk]
    rfl
  · intro sk t ts hsk htok l
    rw [fields_mid sk t ts l hsk htok, fields_last sk t ts hsk htok]
    rfl
  · intro sk t ts post hsk htok ih l
    have h : sk ++ (t :: ts) ++ ';' :: post ++ ';' :: l
        = sk ++ (t :: ts) ++ ';' :: (post ++ ';' :: l) := by simp
    rw [h, fields_mid sk t ts _ hsk htok, fields_mid sk t ts post hsk htok, ih l]
    rfl

theorem no_leading_semi (sk rest : List Char) (hsk : ∀ c ∈ sk, c = ';')
    (h : (sk ++ rest).head? ≠ some ';') : sk = [] := by
  cases sk with
  | nil => rfl
  | cons c cs =>
    have hc : c = ';' := hsk c (List.mem_cons_self _ _)
    rw [hc] at h
    exact absurd rfl h

theorem adjacentSemicolons_right :
    ∀ (a b : List Char), adjacentSemicolons (a ++ b) = false → adjacentSemicolons b = false := by
  intro a
  induction a with
  | nil => intro b h; exact h
  | cons x xs ih =>
    intro b h
    cases hxs : xs ++ b with
    | nil =>
      have hb : b = [] := (List.append_eq_nil.mp hxs).2
      rw [hb]
      rfl
    | cons y l =>
      rw [List.cons_append, hxs] at h
      simp only [adjacentSemicolons, Bool.or_eq_false_iff] at h
      rw [← hxs] at h
      exact ih b h.2

/-- Joining the fields of a line with `;` gives the line back when its `;`
separate non-empty fields. -/
theorem fields_intercalate (l : List Char) :
    SemicolonsSeparate l → [';'].intercalate (fields l) = l := by
  refine line_induction
    (fun l => SemicolonsSeparate l → [';'].intercalate (fields l) = l) ?_ ?_ ?_ l
  · intro sk hsk hsep
    have h0 := no_leading_semi sk [] hsk (by simpa using hsep.1)
    rw [h0, fields_nil]
    rfl
  · intro sk t ts hsk htok hsep
    have h0 := no_leading_semi sk (t :: ts) hsk hsep.1
    rw [fields_last sk t ts hsk htok, h0]
    simp [List.intercalate]
  · intro sk t ts post hsk htok ih hsep
    have h0 := no_leading_semi sk ((t :: ts) ++ ';' :: post) hsk
      (by rw [← List.append_assoc]; exact hsep.1)
    rw [fields_mid sk t ts post hsk htok]
    subst h0
    obtain ⟨_, hlast, hadj⟩ := hsep
    cases post with
    | nil =>
      exfalso
      apply hlast
      rw [List.getLast?_append_of_ne_nil _ (by simp)]
      rfl
    | cons p ps =>
      have hright : adjacentSemicolons (';' :: p :: ps) = false :=
        adjacentSemicolons_right _ _ hadj
      simp only [adjacentSemicolons, Bool.or_eq_false_iff, Bool.and_eq_false_iff] at hright
      have hp : p ≠ ';' := by
        intro h
        rcases hright.1 with h1 | h1
        · simp at h1
        · simp [h] at h1
      have hpost : SemicolonsSeparate (p :: ps) := by
        refine ⟨by simpa using hp, ?_, hright.2⟩
        intro h
        apply hlast
        rw [List.getLast?_append_of_ne_nil _ (by simp), List.getLast?_cons_cons]
        exact h
      have hjoin := ih hpost
      cases hf : fields (p :: ps) with
      | nil =>
        rw [hf] at hjoin
        simp [List.intercalate] at hjoin
      | cons g gs =>
        rw [hf] at hjoin
        simp only [List.intercalate, List.intersperse_cons_cons, List.flatten_cons] at hjoin ⊢
        rw [hjoin]
        simp

/-! ## Claims about the fields of a line -/

/-- C19: for every line, when no allocation fails, no Command returned by
`parse_commands` is empty or contains `;`; the Commands put end to end, in
order, are exactly the line with every `;` removed; and when the line has no
leading, trailing or adjacent `;`, joining the Commands with `;` gives the
line back. -/
theorem commands_partition_line (alloc : Nat → Bool) (halloc : ∀ n, alloc n = true)
    (line : List Char) (hline : NUL ∉ line) :
    ∃ r, parse_commands alloc (lineBuffer line) 0 = some r ∧
      (∀ c ∈ commandStrings r.mem r.commands, c ≠ [] ∧ ';' ∉ c) ∧
      (commandStrings r.mem r.commands).flatten = line.filter (fun c => c != ';') ∧
      (SemicolonsSeparate line →
        [';'].intercalate (commandStrings r.mem r.commands) = line) := by
  obtain ⟨r, hr, _, _, hmap, _, _⟩ := parse_commands_spec alloc halloc line hline
  have hcs : commandStrings r.mem r.commands = fields line := hmap
  refine ⟨r, hr, ?_, ?_, ?_⟩
  · rw [hcs]; exact fields_mem line
  · rw [hcs]; exact fields_flatten line
  · rw [hcs]; exact fields_intercalate line

theorem commands_partition_line_witness :
    NUL ∉ "ls -l; echo hi;exit".toList ∧ SemicolonsSeparate "ls -l; echo hi;exit".toList ∧
    ∃ r, parse_commands (fun _ => true) (lineBuffer "ls -l; echo hi;exit".toList) 0 = some r ∧
      (∀ c ∈ commandStrings r.mem r.commands, c ≠ [] ∧ ';' ∉ c) ∧
      (commandStrings r.mem r.commands).flatten
        = "ls -l; echo hi;exit".toList.filter (fun c => c != ';') ∧
      [';'].intercalate (commandStrings r.mem r.commands) = "ls -l; echo hi;exit".toList := by
  obtain ⟨r, hr, h1, h2, h3⟩ :=
    commands_partition_line (fun _ => true) (fun _ => rfl) "ls -l; echo hi;exit".toList
      (by decide)
  exact ⟨by decide, by decide, r, hr, h1, h2, h3 (by decide)⟩

/-- C20: for every line that is empty or made only of `;`, `parse_commands`
(no allocation failing) returns a Command List of length 0, the value 0 and
not the failure value -1; and `run_commands` on a list of length 0 returns 0
without invoking `system()`: the world is left as it was. -/
theorem empty_line_runs_nothing (alloc : Nat → Bool) (halloc : ∀ n, alloc n = true)
    (system : Spawner) (line : List Char) (w : World) (hline : ∀ c ∈ line, c = ';') :
    ∃ r, parse_commands alloc (lineBuffer line) 0 = some r ∧
      r.ret = 0 ∧ r.ret ≠ -1 ∧ r.commands = [] ∧
      run_commands system r.commands w = (0, w) ∧
      (run_commands system r.commands { mem := r.mem, trace := w.trace }).2.trace = w.trace := by
  have hnul : NUL ∉ line := fun h => absurd (hline NUL h) (by decide)
  obtain ⟨r, hr, hret, hlen, _, _, _⟩ := parse_commands_spec alloc halloc line hnul
  rw [fields_only_semi line hline] at hret hlen
  have hnil : r.commands = [] := List.eq_nil_of_length_eq_zero hlen
  refine ⟨r, hr, by simpa using hret, by rw [hret]; decide, hnil, ?_, ?_⟩
  · rw [hnil]; rfl
  · rw [hnil]; rfl

theorem empty_line_runs_nothing_witness :
    (∀ c ∈ ";;;".toList, c = ';') ∧
    ∃ r, parse_commands (fun _ => true) (lineBuffer ";;;".toList) 0 = some r ∧
      r.ret = 0 ∧ r.ret ≠ -1 ∧ r.commands = [] ∧
      run_commands failsOnB r.commands { mem := exampleMem, trace := [] }
        = (0, { mem := exampleMem, trace := [] }) ∧
      (run_commands failsOnB r.commands { mem := r.mem, trace := [] }).2.trace = [] :=
  ⟨by decide,
    empty_line_runs_nothing (fun _ => true) (fun _ => rfl) failsOnB ";;;".toList
      { mem := exampleMem, trace := [] } (by decide)⟩

/-- Counterexample to C14 as stated: for the line `a;;b`, `parse_commands`
returns exactly the two Commands `a` and `b`; there is no empty Command
between them. -/
theorem double_semicolon_counterexample :
    (parse_commands (fun _ => true) (lineBuffer "a;;b".toList) 0).map
        (fun r => (r.ret, commandStrings r.mem r.commands))
      = some (2, ["a".toList, "b".toList]) ∧
    (parse_commands (fun _ => true) (lineBuffer "a;;b".toList) 0).map
        (fun r => commandStrings r.mem r.commands)
      ≠ some ["a".toList, [], "b".toList] := by
  decide

/-- C14, amended: two consecutive semicolons produce no Command.  For every
line `u;;v`, when no allocation fails, the Command List returned by
`parse_commands` is the Commands of `u` followed directly by the Commands of
`v`, and it contains no empty Command. -/
theorem double_semicolon_produces_nothing (alloc : Nat → Bool)
    (halloc : ∀ n, alloc n = true) (u v : List Char) (hu : NUL ∉ u) (hv : NUL ∉ v) :
    ∃ r, parse_commands alloc (lineBuffer (u ++ ';' :: ';' :: v)) 0 = some r ∧
      commandStrings r.mem r.commands = fields u ++ fields v ∧
      r.ret = (((fields u).length + (fields v).length : Nat) : Int) ∧
      [] ∉ commandStrings r.mem r.commands := by
  have hline : NUL ∉ u ++ ';' :: ';' :: v := by
    intro h
    rcases List.mem_append.mp h with h | h
    · exact hu h
    · rcases List.mem_cons.mp h with h | h
      · exact absurd h (by decide)
      · rcases List.mem_cons.mp h with h | h
        · exact absurd h (by decide)
        · exact hv h
  obtain ⟨r, hr, hret, _, hmap, _, _⟩ := parse_commands_spec alloc halloc _ hline
  have hcs : commandStrings r.mem r.commands = fields (u ++ ';' :: ';' :: v) := hmap
  have hf : fields (u ++ ';' :: ';' :: v) = fields u ++ fields v := by
    rw [fields_append_semi, fields_semi_cons]
  refine ⟨r, hr, by rw [hcs, hf], by rw [hret, hf, List.length_append], ?_⟩
  rw [hcs]
  intro h
  exact (fields_mem _ [] h).1 rfl

theorem double_semicolon_produces_nothing_witness :
    NUL ∉ "a".toList ∧ NUL ∉ "b".toList ∧
    ∃ r, parse_commands (fun _ => true) (lineBuffer ("a".toList ++ ';' :: ';' :: "b".toList)) 0
        = some r ∧
      commandStrings r.mem r.commands = fields "a".toList ++ fields "b".toList ∧
      r.ret = (((fields "a".toList).length + (fields "b".toList).length : Nat) : Int) ∧
      [] ∉ commandStrings r.mem r.commands :=
  ⟨by decide, by decide,
    double_semicolon_produces_nothing (fun _ => true) (fun _ => rfl) "a".toList "b".toList
      (by decide) (by decide)⟩

/-! ## Claims about the trim step -/

theorem rdropWhile_append_rtakeWhile (p : Char → Bool) (l : List Char) :
    l.rdropWhile p ++ l.rtakeWhile p = l := by
  simp only [List.rdropWhile, List.rtakeWhile, ← List.reverse_append,
    List.takeWhile_append_dropWhile, List.reverse_reverse]

/-- C15: for every Command, the trim step of `run_commands` leaves the Command
with its leading run of whitespace and its trailing run of whitespace removed.
The string at the pointer after the step (which is `trim` of the string before)
is a contiguous part of the Command; what is removed before it and after it is
only whitespace; it keeps everything in between; and it is empty or begins and
ends with a character that is not whitespace.  Whitespace is space, `\t`, `\n`,
`\v`, `\f` and `\r`. -/
theorem trim_removes_outer_whitespace (mem : List Char) (p : Nat) :
    cstr (trim_command mem p).1 (trim_command mem p).2 = trim (cstr mem p) ∧
    ∃ pre suf, cstr mem p = pre ++ trim (cstr mem p) ++ suf ∧
      (∀ x ∈ pre, isspace x = true) ∧ (∀ x ∈ suf, isspace x = true) ∧
      (∀ x, (trim (cstr mem p)).head? = some x → isspace x = false) ∧
      (∀ x, (trim (cstr mem p)).getLast? = some x → isspace x = false) ∧
      (∀ x, isspace x = true ↔ x ∈ [' ', '\t', '\n', Char.ofNat 11, Char.ofNat 12, '\r']) := by
  refine ⟨cstr_trim_command_eq_trim mem p, ?_⟩
  have hset : ∀ x, isspace x = true
      ↔ x ∈ [' ', '\t', '\n', Char.ofNat 11, Char.ofNat 12, '\r'] := by
    intro x
    simp [isspace, or_assoc]
  rw [trim_eq_trimSpec _ (NUL_not_mem_cstr mem p)]
  generalize cstr mem p = c
  have hsplit : c = c.takeWhile isspace ++ c.dropWhile isspace :=
    (List.takeWhile_append_dropWhile isspace c).symm
  have hpre : ∀ x ∈ c.takeWhile isspace, isspace x = true :=
    fun x hx => List.mem_takeWhile_imp hx
  unfold trimSpec
  cases hd : c.dropWhile isspace with
  | nil =>
    refine ⟨c.takeWhile isspace, [], ?_, hpre, by simp, by simp [stripTail],
      by simp [stripTail], hset⟩
    rw [hd] at hsplit
    simpa [stripTail] using hsplit
  | cons x t =>
    have hx : isspace x = false := dropWhile_head_not isspace c x t hd
    refine ⟨c.takeWhile isspace, t.rtakeWhile isspace, ?_, hpre,
      fun y hy => List.mem_rtakeWhile_imp hy, ?_, ?_, hset⟩
    · rw [hd] at hsplit
      simp only [stripTail]
      rw [List.append_assoc, List.cons_append, rdropWhile_append_rtakeWhile]
      exact hsplit
    · intro y hy
      simp only [stripTail, List.head?_cons, Option.some.injEq] at hy
      rw [← hy]
      exact hx
    · intro y hy
      simp only [stripTail] at hy
      by_cases hne : t.rdropWhile isspace = []
      · rw [hne] at hy
        simp only [List.getLast?_singleton, Option.some.injEq] at hy
        rw [← hy]
        exact hx
      · have hcons : x :: t.rdropWhile isspace = [x] ++ t.rdropWhile isspace := rfl
        rw [hcons, List.getLast?_append_of_ne_nil _ hne, List.getLast?_eq_getLast _ hne] at hy
        have := List.rdropWhile_last_not isspace t hne
        simp only [Option.some.injEq] at hy
        rw [← hy]
        simpa using this

/-- Counterexample to C16 as stated: the Command made of one space is trimmed
to the empty string; `run_commands` hands `system()` a string of length 0. -/
theorem single_space_counterexample :
    trim [' '] = [] ∧ (trim [' ']).length ≠ 1 ∧
    (run_commands alwaysZero [0] { mem := lineBuffer [' '], trace := [] }).2.trace = [[]] := by
  decide

/-- C16, amended: a Command of one character that is not whitespace is never
trimmed, its trimmed form has length 1; a Command of one whitespace character
is trimmed to the empty string by the forward scan; and the backward scan
alone never shortens a non-empty string below length 1. -/
theorem single_character_trim (x : Char) (hx : x ≠ NUL) :
    (isspace x = false → trim [x] = [x] ∧ (trim [x]).length = 1) ∧
    (isspace x = true → trim [x] = []) ∧
    ∀ (mem : List Char) (cmd : Nat), 1 ≤ strlen mem cmd →
      1 ≤ strlen (trim_trailing cmd (cmd + strlen mem cmd - 1) mem) cmd := by
  have hnul : NUL ∉ [x] := by
    intro h
    simp only [List.mem_singleton] at h
    exact hx h.symm
  refine ⟨?_, ?_, ?_⟩
  · intro hs
    have : trim [x] = [x] := by
      rw [trim_eq_trimSpec _ hnul]
      simp [trimSpec, List.dropWhile, hs, stripTail, List.rdropWhile_nil]
    exact ⟨this, by rw [this]; rfl⟩
  · intro hs
    rw [trim_eq_trimSpec _ hnul]
    simp [trimSpec, List.dropWhile, hs, stripTail]
  · intro mem cmd hlen
    have h := cstr_trim_trailing cmd (cmd + strlen mem cmd - 1) mem rfl
    show 1 ≤ (cstr (trim_trailing cmd (cmd + strlen mem cmd - 1) mem) cmd).length
    rw [h]
    unfold strlen at hlen
    cases hc : cstr mem cmd with
    | nil => rw [hc] at hlen; simp at hlen
    | cons y t => simp [stripTail]

theorem single_character_trim_witness :
    'a' ≠ NUL ∧ trim ['a'] = ['a'] ∧ (trim ['a']).length = 1 :=
  ⟨by decide, (single_character_trim 'a' (by decide)).1 (by decide)⟩

/-! ## Dispatching line after line -/

theorem dispatch_ret (system : Spawner) :
    ∀ (A : List (List Char)) (trace : List (List Char)),
      (dispatch system A trace).1 = 0 ∨ (dispatch system A trace).1 = 1
        ∨ (dispatch system A trace).1 = -1 := by
  intro A
  induction A with
  | nil => intro trace; exact Or.inl rfl
  | cons a A ih =>
    intro trace
    simp only [dispatch]
    by_cases h1 : a = exitLiteral
    · rw [if_pos h1]; exact Or.inr (Or.inl rfl)
    · rw [if_neg h1]
      by_cases h2 : system trace a = -1
      · rw [if_pos h2]; exact Or.inr (Or.inr rfl)
      · rw [if_neg h2]; exact ih _

/-- Commands that all pass are followed by the next ones. -/
theorem dispatch_append_of_zero (system : Spawner) :
    ∀ (A B : List (List Char)) (trace : List (List Char)),
      (dispatch system A trace).1 = 0 →
      dispatch system (A ++ B) trace = dispatch system B (trace ++ A) := by
  intro A
  induction A with
  | nil => intro B trace _; simp
  | cons a A ih =>
    intro B trace h
    simp only [dispatch] at h
    rw [List.cons_append]
    simp only [dispatch]
    by_cases h1 : a = exitLiteral
    · rw [if_pos h1] at h
      simp at h
    · rw [if_neg h1] at h
      rw [if_neg h1]
      by_cases h2 : system trace a = -1
      · rw [if_pos h2] at h
        simp at h
      · rw [if_neg h2] at h
        rw [if_neg h2, ih B _ h]
        simp [List.append_assoc]

/-- Commands that stop the loop hide the next ones. -/
theorem dispatch_append_of_ne (system : Spawner) :
    ∀ (A B : List (List Char)) (trace : List (List Char)),
      (dispatch system A trace).1 ≠ 0 →
      dispatch system (A ++ B) trace = dispatch system A trace := by
  intro A
  induction A with
  | nil => intro B trace h; exact absurd rfl h
  | cons a A ih =>
    intro B trace h
    simp only [dispatch] at h
    rw [List.cons_append]
    simp only [dispatch]
    by_cases h1 : a = exitLiteral
    · simp only [if_pos h1]
    · rw [if_neg h1] at h
      by_cases h2 : system trace a = -1
      · simp only [if_neg h1, if_pos h2]
      · rw [if_neg h2] at h
        simp only [if_neg h1, if_neg h2]
        exact ih B _ h

theorem dispatch_of_zero (system : Spawner) (A : List (List Char))
    (trace : List (List Char)) (h : (dispatch system A trace).1 = 0) :
    dispatch system A trace = (0, trace ++ A) := by
  obtain ⟨n, hn, htr, hret⟩ := dispatch_prefix system A trace
  have hnl := hret h
  rw [hnl, List.take_length] at htr
  exact Prod.ext h htr

/-- The dispatch outcome of a line in batch mode, no allocation failing, is
what `dispatch` computes from the trimmed fields of the line. -/
theorem line_outcome_eq (alloc : Nat → Bool) (halloc : ∀ n, alloc n = true)
    (system : Spawner) (line : List Char) (hline : NUL ∉ line) (trace : List (List Char)) :
    line_outcome alloc system (lineBuffer line) trace
      = some (dispatch system (trimmedFields line) trace) := by
  obtain ⟨r, hr, hret, _, _, hrun⟩ := split_then_dispatch alloc halloc system line hline trace
  have hne : ¬ (r.ret = -1) := by rw [hret]; omega
  simp only [line_outcome, hr, if_neg hne]
  unfold trimmedFields
  rw [← hrun]

/-- In batch mode, no allocation failing, running a script is dispatching the
trimmed fields of all its lines, in order, in one go. -/
theorem run_batch_script_eq_dispatch (alloc : Nat → Bool) (halloc : ∀ n, alloc n = true)
    (system : Spawner) :
    ∀ (script : List (List Char)) (trace : List (List Char)),
      (∀ l ∈ script, NUL ∉ l) →
      run_batch_script alloc system script trace
        = some (dispatch system (script.flatMap trimmedFields) trace) := by
  intro script
  induction script with
  | nil => intro trace _; rfl
  | cons line rest ih =>
    intro trace hnul
    have hline : NUL ∉ line := hnul line (List.mem_cons_self _ _)
    have hrest : ∀ l ∈ rest, NUL ∉ l := fun l hl => hnul l (List.mem_cons_of_mem _ hl)
    obtain ⟨r, hr, hret, _, _, hrun0⟩ :=
      split_then_dispatch alloc halloc system line hline trace
    have hrun : ((run_commands system r.commands { mem := r.mem, trace := trace }).1,
        (run_commands system r.commands { mem := r.mem, trace := trace }).2.trace)
        = dispatch system (trimmedFields line) trace := hrun0
    have hne : ¬ (r.ret = -1) := by rw [hret]; omega
    have h1 := congrArg Prod.fst hrun
    have h2 := congrArg Prod.snd hrun
    simp only at h1 h2
    simp only [run_batch_script, hr, if_neg hne, List.flatMap_cons]
    by_cases h0 : (run_commands system r.commands { mem := r.mem, trace := trace }).1 = 0
    · have hd0 : (dispatch system (trimmedFields line) trace).1 = 0 := by
        rw [← h1]; exact h0
      have hd := dispatch_of_zero system _ trace hd0
      simp only [ne_eq, h0, not_true_eq_false, if_false]
      rw [ih _ hrest, dispatch_append_of_zero system _ _ trace hd0, h2, hd]
    · have hd0 : (dispatch system (trimmedFields line) trace).1 ≠ 0 := by
        rw [← h1]; exact h0
      simp only [ne_eq, h0, not_false_eq_true, if_true]
      rw [dispatch_append_of_ne system _ _ trace hd0, ← hrun]

/-- When every line yields Continue, all their trimmed fields were invoked. -/
theorem lines_continue (system : Spawner) :
    ∀ (before : List (List Char)) (trace : List (List Char)),
      (∀ j l, before[j]? = some l →
        (dispatch system (trimmedFields l)
          (trace ++ (before.take j).flatMap trimmedFields)).1 = 0) →
      dispatch system (before.flatMap trimmedFields) trace
        = (0, trace ++ before.flatMap trimmedFields) := by
  intro before
  induction before with
  | nil => intro trace _; simp [dispatch]
  | cons l ls ih =>
    intro trace h
    have h0 := h 0 l (by simp)
    simp only [List.take_zero, List.flatMap_nil, List.append_nil] at h0
    have hrest : ∀ j m, ls[j]? = some m →
        (dispatch system (trimmedFields m)
          ((trace ++ trimmedFields l) ++ (ls.take j).flatMap trimmedFields)).1 = 0 := by
      intro j m hj
      have := h (j + 1) m (by simpa using hj)
      simpa [List.append_assoc] using this
    rw [List.flatMap_cons, dispatch_append_of_zero system _ _ trace h0,
      ih (trace ++ trimmedFields l) hrest]
    simp [List.append_assoc]

/-! ## Claims about the drivers -/

/-- C11: for every script and every behaviour of `system()`, no allocation
failing, `run_batch_script` processes the lines in order and stops at the
first line whose dispatch outcome is not Continue.  When every line of
`before` yields Continue (each from the record left by the lines before it),
the script `before` returns 0 after invoking all their trimmed Commands; and
when the next line yields an outcome `o` other than Continue, the script
`before ++ line :: after` returns `o`, which is 1 (Exit) or -1 (Fatal), with the
record that line left: the invocations stop inside that line and no Command of
`after` is handed to `system()`. -/
theorem run_batch_script_stops_at_first (alloc : Nat → Bool) (halloc : ∀ n, alloc n = true)
    (system : Spawner) (before : List (List Char)) (line : List Char)
    (after : List (List Char)) (trace : List (List Char))
    (hnul : ∀ l ∈ before ++ line :: after, NUL ∉ l)
    (hcont : ∀ j l, before[j]? = some l →
      ∃ tr, line_outcome alloc system (lineBuffer l)
        (trace ++ (before.take j).flatMap trimmedFields) = some (0, tr)) :
    run_batch_script alloc system before trace
      = some (0, trace ++ before.flatMap trimmedFields) ∧
    ∀ o tr2,
      line_outcome alloc system (lineBuffer line) (trace ++ before.flatMap trimmedFields)
        = some (o, tr2) →
      o ≠ 0 →
      run_batch_script alloc system (before ++ line :: after) trace = some (o, tr2) ∧
      (o = 1 ∨ o = -1) ∧
      ∃ n, tr2 = trace ++ before.flatMap trimmedFields ++ (trimmedFields line).take n := by
  have hnb : ∀ l ∈ before, NUL ∉ l := fun l hl => hnul l (List.mem_append_left _ hl)
  have hnl : NUL ∉ line := hnul line (List.mem_append_right _ (List.mem_cons_self _ _))
  have hall : dispatch system (before.flatMap trimmedFields) trace
      = (0, trace ++ before.flatMap trimmedFields) := by
    apply lines_continue
    intro j l hj
    obtain ⟨tr, htr⟩ := hcont j l hj
    rw [line_outcome_eq alloc halloc system l (hnb l (List.getElem?_mem hj))] at htr
    have := Option.some.inj htr
    rw [this]
  refine ⟨?_, ?_⟩
  · rw [run_batch_script_eq_dispatch alloc halloc system before trace hnb, hall]
  · intro o tr2 hline ho
    rw [line_outcome_eq alloc halloc system line hnl] at hline
    have hd : dispatch system (trimmedFields line) (trace ++ before.flatMap trimmedFields)
        = (o, tr2) := Option.some.inj hline
    have hd1 : (dispatch system (trimmedFields line)
        (trace ++ before.flatMap trimmedFields)).1 ≠ 0 := by rw [hd]; exact ho
    refine ⟨?_, ?_, ?_⟩
    · rw [run_batch_script_eq_dispatch alloc halloc system _ trace hnul,
        List.flatMap_append, List.flatMap_cons,
        dispatch_append_of_zero system _ _ trace (by rw [hall]),
        dispatch_append_of_ne system _ _ _ hd1, hd]
    · have := dispatch_ret system (trimmedFields line) (trace ++ before.flatMap trimmedFields)
      rw [hd] at this
      rcases this with h | h | h
      · exact absurd h ho
      · exact Or.inl h
      · exact Or.inr h
    · obtain ⟨n, _, htr, _⟩ := dispatch_prefix system (trimmedFields line)
        (trace ++ before.flatMap trimmedFields)
      rw [hd] at htr
      exact ⟨n, htr⟩

theorem run_batch_script_stops_at_first_witness :
    run_batch_script (fun _ => true) alwaysZero ["echo a\n".toList] []
      = some (0, [] ++ ["echo a\n".toList].flatMap trimmedFields) ∧
    run_batch_script (fun _ => true) alwaysZero
        (["echo a\n".toList] ++ " exit \n".toList :: ["rm -rf /\n".toList]) []
      = some (1, ["echo a".toList]) := by
  have h := run_batch_script_stops_at_first (fun _ => true) (fun _ => rfl) alwaysZero
    ["echo a\n".toList] " exit \n".toList ["rm -rf /\n".toList] [] (by decide)
    (fun j l hj => by
      cases j with
      | zero =>
        have hl : l = "echo a\n".toList := by simpa using hj.symm
        subst hl
        exact ⟨["echo a".toList], by decide⟩
      | succ j => simp at hj)
  exact ⟨h.1, (h.2 1 ["echo a".toList] (by decide) (by decide)).1⟩

/-- One iteration of `run_prompt_loop` on a line with a dispatch outcome. -/
theorem run_prompt_loop_step (alloc : Nat → Bool) (system : Spawner) (raw : List Char)
    (rest : List (List Char)) (s : Session) (o : Int) (tr2 : List (List Char))
    (hline : line_outcome alloc system (strip_newline (lineBuffer raw)) s.trace
      = some (o, tr2)) :
    run_prompt_loop alloc system (raw :: rest) s
      = if o = -1 then
          run_prompt_loop alloc system rest { trace := tr2, diagnostics := s.diagnostics + 1 }
        else if o = 1 then
          some { session := { trace := tr2, diagnostics := s.diagnostics },
                 unread := rest, stop := LoopEnd.exitCommand }
        else
          run_prompt_loop alloc system rest { trace := tr2, diagnostics := s.diagnostics } := by
  unfold line_outcome at hline
  cases hp : parse_commands alloc (strip_newline (lineBuffer raw)) 0 with
  | none => rw [hp] at hline; simp at hline
  | some r =>
    rw [hp] at hline
    simp only at hline
    by_cases hret : r.ret = -1
    · rw [if_pos hret] at hline
      simp at hline
    · rw [if_neg hret] at hline
      have hinj := Option.some.inj hline
      have ho : (run_commands system r.commands { mem := r.mem, trace := s.trace }).1 = o :=
        congrArg Prod.fst hinj
      have ht : (run_commands system r.commands { mem := r.mem, trace := s.trace }).2.trace
          = tr2 := congrArg Prod.snd hinj
      simp only [run_prompt_loop, hp, if_neg hret, ho, ht]

/-- When the loop reads all of `before` without stopping, it goes on with the
lines that follow. -/
theorem run_prompt_loop_append (alloc : Nat → Bool) (system : Spawner) :
    ∀ (before more : List (List Char)) (s s1 : Session),
      run_prompt_loop alloc system before s
        = some { session := s1, unread := [], stop := LoopEnd.endOfInput } →
      run_prompt_loop alloc system (before ++ more) s = run_prompt_loop alloc system more s1 := by
  intro before
  induction before with
  | nil =>
    intro more s s1 h
    simp only [run_prompt_loop, Option.some.injEq, PromptResult.mk.injEq] at h
    rw [List.nil_append, h.1]
  | cons l ls ih =>
    intro more s s1 h
    rw [List.cons_append]
    simp only [run_prompt_loop] at h ⊢
    cases hp : parse_commands alloc (strip_newline (lineBuffer l)) 0 with
    | none => rw [hp] at h; simp at h
    | some r =>
      rw [hp] at h
      simp only at h ⊢
      by_cases hret : r.ret = -1
      · rw [if_pos hret] at h
        simp at h
      · rw [if_neg hret] at h
        rw [if_neg hret]
        by_cases h1 : (run_commands system r.commands { mem := r.mem, trace := s.trace }).1 = -1
        · rw [if_pos h1] at h
          rw [if_pos h1]
          exact ih more _ s1 h
        · rw [if_neg h1] at h
          rw [if_neg h1]
          by_cases h2 : (run_commands system r.commands { mem := r.mem, trace := s.trace }).1 = 1
          · rw [if_pos h2] at h
            simp at h
          · rw [if_neg h2] at h
            rw [if_neg h2]
            exact ih more _ s1 h

/-- Counterexample to C12 as stated: with the input lines `b` and `a`, where
`system()` fails to launch `b`, the dispatch of the first line reports Fatal,
and yet the loop reads the second line and hands `a` to `system()`; it ends
only at the end of the input, with one diagnostic printed. -/
theorem prompt_loop_fatal_counterexample :
    line_outcome (fun _ => true) failsOnB (strip_newline (lineBuffer "b\n".toList)) []
      = some (-1, ["b".toList]) ∧
    run_prompt_loop (fun _ => true) failsOnB ["b\n".toList, "a\n".toList]
        { trace := [], diagnostics := 0 }
      = some { session := { trace := ["b".toList, "a".toList], diagnostics := 1 },
               unread := [], stop := LoopEnd.endOfInput } := by
  decide

/-- C12, amended: in interactive mode, when the dispatch of a line reports
Fatal (`run_commands` returns -1), one diagnostic is printed and the read loop
does not terminate: for every sequence of input lines it goes on to read, split
and dispatch the lines that follow, from the record of invocations the failing
line left. -/
theorem prompt_loop_continues_after_fatal (alloc : Nat → Bool) (system : Spawner)
    (before : List (List Char)) (raw : List Char) (after : List (List Char))
    (s s1 : Session) (tr2 : List (List Char))
    (hbefore : run_prompt_loop alloc system before s
      = some { session := s1, unread := [], stop := LoopEnd.endOfInput })
    (hline : line_outcome alloc system (strip_newline (lineBuffer raw)) s1.trace
      = some (-1, tr2)) :
    run_prompt_loop alloc system (before ++ raw :: after) s
      = run_prompt_loop alloc system after
          { trace := tr2, diagnostics := s1.diagnostics + 1 } := by
  rw [run_prompt_loop_append alloc system before (raw :: after) s s1 hbefore,
    run_prompt_loop_step alloc system raw after s1 (-1) tr2 hline]
  simp

theorem prompt_loop_continues_after_fatal_witness :
    run_prompt_loop (fun _ => true) failsOnB (["a\n".toList] ++ "b; c\n".toList :: ["a\n".toList])
        { trace := [], diagnostics := 0 }
      = run_prompt_loop (fun _ => true) failsOnB ["a\n".toList]
          { trace := ["a".toList, "b".toList], diagnostics := 0 + 1 } :=
  prompt_loop_continues_after_fatal (fun _ => true) failsOnB ["a\n".toList] "b; c\n".toList
    ["a\n".toList] { trace := [], diagnostics := 0 } { trace := ["a".toList], diagnostics := 0 }
    ["a".toList, "b".toList] (by decide) (by decide)

/-- C13: in interactive mode, for every sequence of input lines of which the
loop has read `before` without stopping: when the dispatch of the next line
reports Exit (`run_commands` returns 1), the loop ends there, leaving the lines
after it unread and the record of invocations as that line left it, so no
Command of a later line is handed to `system()`; and when it reports Continue
(returns 0), the loop goes on to read the lines that follow. -/
theorem prompt_loop_exit_and_continue (alloc : Nat → Bool) (system : Spawner)
    (before : List (List Char)) (raw : List Char) (after : List (List Char))
    (s s1 : Session) (o : Int) (tr2 : List (List Char))
    (hbefore : run_prompt_loop alloc system before s
      = some { session := s1, unread := [], stop := LoopEnd.endOfInput })
    (hline : line_outcome alloc system (strip_newline (lineBuffer raw)) s1.trace
      = some (o, tr2)) :
    (o = 1 →
      run_prompt_loop alloc system (before ++ raw :: after) s
        = some { session := { trace := tr2, diagnostics := s1.diagnostics },
                 unread := after, stop := LoopEnd.exitCommand }) ∧
    (o = 0 →
      run_prompt_loop alloc system (before ++ raw :: after) s
        = run_prompt_loop alloc system after
            { trace := tr2, diagnostics := s1.diagnostics }) := by
  rw [run_prompt_loop_append alloc system before (raw :: after) s s1 hbefore,
    run_prompt_loop_step alloc system raw after s1 o tr2 hline]
  refine ⟨?_, ?_⟩
  · intro ho
    subst ho
    simp
  · intro ho
    subst ho
    simp

theorem prompt_loop_exit_and_continue_witness :
    run_prompt_loop (fun _ => true) alwaysZero
        (["a\n".toList] ++ "b;  exit ; c\n".toList :: ["rm -rf /\n".toList])
        { trace := [], diagnostics := 0 }
      = some { session := { trace := ["a".toList, "b".toList], diagnostics := 0 },
               unread := ["rm -rf /\n".toList], stop := LoopEnd.exitCommand } ∧
    run_prompt_loop (fun _ => true) alwaysZero
        ([] ++ "a\n".toList :: ["b\n".toList])
        { trace := [], diagnostics := 0 }
      = run_prompt_loop (fun _ => true) alwaysZero ["b\n".toList]
          { trace := ["a".toList], diagnostics := 0 } :=
  ⟨(prompt_loop_exit_and_continue (fun _ => true) alwaysZero ["a\n".toList]
      "b;  exit ; c\n".toList ["rm -rf /\n".toList] { trace := [], diagnostics := 0 }
      { trace := ["a".toList], diagnostics := 0 } 1 ["a".toList, "b".toList]
      (by decide) (by decide)).1 rfl,
    (prompt_loop_exit_and_continue (fun _ => true) alwaysZero [] "a\n".toList ["b\n".toList]
      { trace := [], diagnostics := 0 } { trace := [], diagnostics := 0 } 0 ["a".toList]
      (by decide) (by decide)).2 rfl⟩

/-- C17 on the code: the terminating newline does affect the result in batch
mode, where it is not stripped.  For the line `ls;` the batch driver passes
`ls;` with its newline to `parse_commands`, which finds a second Command, the
newline; it trims to the empty string and is handed to `system()`.  The
interactive driver strips the newline and invokes `ls` alone.  For an empty
line, batch mode invokes `system()` on the empty string, and returns -1 when
that fails, while the line without its newline yields Continue with no
invocation. -/
theorem newline_kept_in_batch_mode :
    line_outcome (fun _ => true) alwaysZero (lineBuffer "ls;\n".toList) []
      = some (0, ["ls".toList, []]) ∧
    line_outcome (fun _ => true) alwaysZero (strip_newline (lineBuffer "ls;\n".toList)) []
      = some (0, ["ls".toList]) ∧
    line_outcome (fun _ => true) alwaysZero (lineBuffer "ls;".toList) []
      = some (0, ["ls".toList]) ∧
    line_outcome (fun _ => true) failsOnEmpty (lineBuffer "\n".toList) []
      = some (-1, [[]]) ∧
    line_outcome (fun _ => true) failsOnEmpty (lineBuffer []) [] = some (0, []) ∧
    run_batch_script (fun _ => true) alwaysZero ["ls;\n".toList] []
      = some (0, ["ls".toList, []]) ∧
    run_prompt_loop (fun _ => true) alwaysZero ["ls;\n".toList]
        { trace := [], diagnostics := 0 }
      = some { session := { trace := ["ls".toList], diagnostics := 0 },
               unread := [], stop := LoopEnd.endOfInput } := by
  decide

end CLI
